import Mathlib

/-!
# Verification of the prompt-builder library

A shallow embedding of `src/prompt_builder.py` in Lean 4.

Conventions:
* Python strings are modelled as `List Char`; `lc` converts a Lean string
  literal to this representation in theorem statements.
* Python dynamic values (contexts, payloads, condition expectations) are
  modelled by the closed variant `Val` (absent lookups and a present `None`
  are both `Val.vnone`, exactly as the code conflates them via
  `_lookup` returning `None`).
* Mutable `OrderedDict`s are modelled as insertion-ordered association
  lists; `odSet` mirrors `d[k] = v` (replace in place, else append).
* Python functions that can raise return `Option`: `none` models an
  uncaught exception (`IndexError` in `_apply_macros`'s unprotect step,
  `KeyError` in `compile`).
* Scanning loops that are not structurally recursive take an explicit
  fuel argument; the top-level wrappers pass a fuel that strictly exceeds
  the number of loop steps (each step consumes at least one character, or
  descends into a strictly smaller value), so the fuel-exhausted branch is
  unreachable and the functions compute exactly what the Python loops do.
-/

namespace PB

/-- Shorthand turning a Lean string literal into the `List Char` model of a
Python string. -/
def lc (s : String) : List Char := s.data

/-- The private-use sentinel character `` used by `_apply_macros`
placeholders (`_PROT`). -/
def sentChar : Char := Char.ofNat 0xE000

/-- Python `str.isspace` characters (ASCII fragment; the library is only
exercised on ASCII whitespace). Used to model `str.strip()` /
`str.lstrip()` / `str.rstrip()`. -/
def isPySpace (c : Char) : Bool :=
  c = ' ' || c = '\t' || c = '\n' || c = '\r' || c = '\x0b' || c = '\x0c'

/-- Python `str.lstrip()`. -/
def pyLStrip (cs : List Char) : List Char := cs.dropWhile isPySpace

/-- Python `str.rstrip()`. -/
def pyRStrip (cs : List Char) : List Char := (cs.reverse.dropWhile isPySpace).reverse

/-- Python `str.strip()`. -/
def pyStrip (cs : List Char) : List Char := pyRStrip (pyLStrip cs)

/-- Decimal digit character for `r < 10` (used to model Python's decimal
formatting `f"{n}"`). -/
def digitChar (r : Nat) : Char :=
  if r = 0 then '0' else if r = 1 then '1' else if r = 2 then '2'
  else if r = 3 then '3' else if r = 4 then '4' else if r = 5 then '5'
  else if r = 6 then '6' else if r = 7 then '7' else if r = 8 then '8' else '9'

/-- Fuelled decimal-digit emitter; fuel `n+1` always suffices since the
argument shrinks by a factor of ten each step. -/
def natDigitsGo : Nat → Nat → List Char → List Char
  | 0, _, acc => acc
  | fuel + 1, n, acc =>
      if n < 10 then digitChar n :: acc
      else natDigitsGo fuel (n / 10) (digitChar (n % 10) :: acc)

/-- Decimal digits of `n`, most significant first: Python `f"{n}"` for a
non-negative int. -/
def natDigits (n : Nat) : List Char := natDigitsGo (n + 1) n []

/-- Python `f"{n}"` / `str(n)` for an int. -/
def intRepr (n : Int) : List Char :=
  if n < 0 then '-' :: natDigits n.natAbs else natDigits n.toNat

/-- Python `int(digit_string)` for a non-empty digit string. -/
def natOfDigits (ds : List Char) : Nat :=
  ds.foldl (fun a c => a * 10 + (c.toNat - 48)) 0

/-- Python `"a.b.c".split('.')` (note: `"".split('.') == [""]`). -/
def splitDotGo : List Char → List Char → List (List Char)
  | [], cur => [cur.reverse]
  | '.' :: rest, cur => cur.reverse :: splitDotGo rest []
  | c :: rest, cur => splitDotGo rest (c :: cur)

/-- Split a path on `.`, as `path.split('.')` does in `_lookup`. -/
def splitDot (cs : List Char) : List (List Char) := splitDotGo cs []

/-- Python `sep.join(parts)`. -/
def joinSep (sep : List Char) : List (List Char) → List Char
  | [] => []
  | [x] => x
  | x :: y :: rest => x ++ sep ++ joinSep sep (y :: rest)

/-- `pat in s` (substring containment) on Python strings. -/
def containsSeq (pat : List Char) : List Char → Bool
  | [] => pat.isEmpty
  | c :: rest => pat.isPrefixOf (c :: rest) || containsSeq pat rest

/-- The dynamic values the library manipulates: Python `None`, `bool`,
`int`, `str`, `list` and (insertion-ordered) `dict`. `vnone` doubles as the
"absent" result of `_lookup`, which the source represents as `None` as
well. Python `tuple`/`set`/`float` payloads are outside the claims and are
not modelled. -/
inductive Val where
  | vnone : Val
  | vbool : Bool → Val
  | vint : Int → Val
  | vstr : List Char → Val
  | vlist : List Val → Val
  | vmap : List (List Char × Val) → Val

instance : Inhabited Val := ⟨Val.vnone⟩

/-- One step of `_lookup`: `cur[part]` when `cur` is a mapping containing
`part`, else absent. -/
def lookupParts : List (List Char) → Val → Val
  | [], cur => cur
  | p :: rest, cur =>
      match cur with
      | .vmap m =>
          match m.find? (fun kv => kv.1 = p) with
          | some kv => lookupParts rest kv.2
          | none => .vnone
      | _ => .vnone

/-- `_lookup(path, data)`: dotted-path lookup; returns `vnone` when any
segment is missing (the code's `None`). -/
def lookup (path : List Char) (data : Val) : Val :=
  lookupParts (splitDot path) data

/-- Python truthiness `bool(x)` on modelled values. -/
def pyTruthy : Val → Bool
  | .vnone => false
  | .vbool b => b
  | .vint n => n ≠ 0
  | .vstr s => ¬ s.isEmpty
  | .vlist xs => ¬ xs.isEmpty
  | .vmap m => ¬ m.isEmpty

/-- Python `==` on modelled values: `True == 1`, dict comparison is
order-insensitive (same keys, equal values), everything else is
structural. -/
def pyEq : Val → Val → Bool
  | .vnone, .vnone => true
  | .vbool x, .vbool y => x = y
  | .vbool x, .vint m => (if x then (1 : Int) else 0) = m
  | .vint n, .vbool y => n = (if y then (1 : Int) else 0)
  | .vint n, .vint m => n = m
  | .vstr s, .vstr t => s = t
  | .vlist xs, .vlist ys => goL xs ys
  | .vmap xs, .vmap ys => xs.length = ys.length && goM xs ys
  | _, _ => false
where
  goL : List Val → List Val → Bool
    | [], [] => true
    | x :: xs, y :: ys => pyEq x y && goL xs ys
    | _, _ => false
  goM : List (List Char × Val) → List (List Char × Val) → Bool
    | [], _ => true
    | kv :: rest, ys =>
        (match ys.find? (fun kv2 => kv2.1 = kv.1) with
         | some kv2 => pyEq kv.2 kv2.2
         | none => false) && goM rest ys

/-- Python `repr` of a value (string escaping inside `repr` of a `str` is
not modelled; no claim exercises it). -/
def pyRepr : Val → List Char
  | .vnone => lc "None"
  | .vbool true => lc "True"
  | .vbool false => lc "False"
  | .vint n => intRepr n
  | .vstr s => '\'' :: s ++ ['\'']
  | .vlist xs => '[' :: joinSep (lc ", ") (goL xs) ++ [']']
  | .vmap m => '{' :: joinSep (lc ", ") (goM m) ++ ['}']
where
  goL : List Val → List (List Char)
    | [] => []
    | x :: rest => pyRepr x :: goL rest
  goM : List (List Char × Val) → List (List Char)
    | [] => []
    | kv :: rest => ('\'' :: kv.1 ++ '\'' :: ':' :: ' ' :: pyRepr kv.2) :: goM rest

/-- Python `str(v)`: identity on strings, `True`/`False`/`None`, decimal
ints, `repr`-style rendering of containers. -/
def pyStr (v : Val) : List Char :=
  match v with
  | .vstr s => s
  | v => pyRepr v

/-! ## The macro engine `_apply_macros`

`re.sub` scans left to right, replacing the leftmost match and resuming
after it (replacements are not rescanned).  For the three precompiled
patterns this is implemented by character scanners:

* `_TRIPLE = \{\{\{(.*?)\}\}\}` (DOTALL): at each position, a match starts
  at a literal `{{{` and its non-greedy body ends at the *first* following
  `}}}`; if no `}}}` follows, no match can start anywhere later either
  (a later match would need a `}}}` in the same suffix), so scanning stops.
* `_DOUBLE = \{\{\s*([^{}]+?)\s*\}\}`: a match starts at `{{`, its body is
  the non-empty run of non-brace characters up to the first brace, which
  must be the first `}` of a literal `}}`; the whitespace groups only trim
  the captured key, which the code re-`strip`s anyway, so the key is the
  stripped run.  On failure the scan advances one character.
* `_PROT = \uE000(\d+)\uE000`: a match is the sentinel, the maximal
  non-empty digit run after it, and another sentinel immediately following
  that run (the greedy `\d+` cannot backtrack into a digit).

Each scanner consumes at least one character per step, so fuel
`length + 1` never runs out. -/

/-- Split at the first `}}}`: `some (body, after)` with
`input = body ++ '}' :: '}' :: '}' :: after`, or `none` when the input
contains no `}}}`. -/
def splitAtTripleClose : List Char → Option (List Char × List Char)
  | '}' :: '}' :: '}' :: rest => some ([], rest)
  | c :: rest =>
      (splitAtTripleClose rest).map (fun pa => (c :: pa.1, pa.2))
  | [] => none

/-- The placeholder `f"{i}"` stored by `protect_store`. -/
def sentTok (i : Nat) : List Char := sentChar :: natDigits i ++ [sentChar]

/-- `_TRIPLE.sub(protect_store, text)`: replace every `{{{...}}}` span by a
placeholder token and append the span's body to the protected list.
Returns the rewritten text and the final protected list. -/
def tripleLoop : Nat → List Char → List (List Char) → List Char × List (List Char)
  | 0, cs, acc => (cs, acc)
  | fuel + 1, cs, acc =>
      match cs with
      | '{' :: '{' :: '{' :: rest =>
          match splitAtTripleClose rest with
          | some pa =>
              let r := tripleLoop fuel pa.2 (acc ++ [pa.1])
              (sentTok acc.length ++ r.1, r.2)
          | none => (cs, acc)
      | c :: rest =>
          let r := tripleLoop fuel rest acc
          (c :: r.1, r.2)
      | [] => ([], acc)

/-- Split at the first `{` or `}`: `some (run, brace, after)` with
`input = run ++ brace :: after` and `run` brace-free, or `none` when the
input has no brace. -/
def splitAtBrace : List Char → Option (List Char × Char × List Char)
  | [] => none
  | c :: rest =>
      if c = '{' ∨ c = '}' then some ([], c, rest)
      else (splitAtBrace rest).map (fun p => (c :: p.1, p.2.1, p.2.2))

/-- The `repl` callback of `_DOUBLE.sub`: `str(val)` when `_lookup`
resolves the stripped key to a non-`None` value, else the whole matched
span `{{run}}` unchanged. -/
def doubleRepl (ctx : Val) (run : List Char) : List Char :=
  match lookup (pyStrip run) ctx with
  | .vnone => '{' :: '{' :: run ++ '}' :: '}' :: []
  | v => pyStr v

/-- `_DOUBLE.sub(repl, text)`: resolve each `{{ key }}` span via `_lookup`;
substitute `str(val)` when the value is non-`None`, otherwise keep the
whole span unchanged. -/
def doubleLoop (ctx : Val) : Nat → List Char → List Char
  | 0, cs => cs
  | fuel + 1, cs =>
      match cs with
      | '{' :: '{' :: rest =>
          match splitAtBrace rest with
          | some (run, '}', '}' :: after) =>
              if run.isEmpty then '{' :: doubleLoop ctx fuel ('{' :: rest)
              else doubleRepl ctx run ++ doubleLoop ctx fuel after
          | _ => '{' :: doubleLoop ctx fuel ('{' :: rest)
      | c :: rest => c :: doubleLoop ctx fuel rest
      | [] => []

/-- `_PROT.sub(unprotect, text)`: replace each placeholder token by
`protected[idx]`; `none` models the `IndexError` raised when `idx` is out
of range (possible when the input text itself contains sentinel
characters). -/
def protLoop (prot : List (List Char)) : Nat → List Char → Option (List Char)
  | 0, cs => some cs
  | _ + 1, [] => some []
  | fuel + 1, c :: rest =>
      if c = sentChar then
        let digits := rest.takeWhile Char.isDigit
        match rest.drop digits.length with
        | c2 :: after =>
            if c2 = sentChar ∧ ¬ digits.isEmpty then
              match prot.get? (natOfDigits digits) with
              | some content => (protLoop prot fuel after).map (fun t => content ++ t)
              | none => none
            else (protLoop prot fuel rest).map (fun t => c :: t)
        | [] => (protLoop prot fuel rest).map (fun t => c :: t)
      else (protLoop prot fuel rest).map (fun t => c :: t)

/-- `_apply_macros(text, context)`: protect `{{{...}}}` spans, interpolate
`{{ key }}` spans, then restore the protected bodies verbatim.  `none`
models an uncaught `IndexError` in the restore step. -/
def applyMacros (text : List Char) (ctx : Val) : Option (List Char) :=
  if text.isEmpty then some text
  else
    let p := tripleLoop (text.length + 1) text []
    let t2 := doubleLoop ctx (p.1.length + 1) p.1
    protLoop p.2 (t2.length + 1) t2

/-- `_conditions_match(conds, context)`: empty conditions accept, absent
context with conditions rejects, each pair is a membership / truthiness /
equality test, all must pass. -/
def conditionsMatch (conds : List (List Char × Val)) (context : Option Val) : Bool :=
  if conds.isEmpty then true
  else
    match context with
    | none => false
    | some ctx =>
        conds.all fun kv =>
          let actual := lookup kv.1 ctx
          match kv.2 with
          | .vlist es => es.any (fun e => pyEq actual e)
          | .vbool true => pyTruthy actual
          | .vbool false => !pyTruthy actual
          | expected => pyEq actual expected

/-! ## Nested rendering -/

/-- `'  ' * level`. -/
def indent (level : Nat) : List Char := List.replicate (2 * level) ' '

/-- `_bullet_label(idx, ordered)`: `"{idx}."` when ordered, else `"-"`. -/
def bulletLabel (idx : Nat) (ordered : Bool) : List Char :=
  if ordered then natDigits idx ++ ['.'] else ['-']

/-- `_is_nested_structure` on modelled values (`Mapping`, `list`). -/
def isNested : Val → Bool
  | .vlist _ => true
  | .vmap _ => true
  | _ => false

/-- `_render_nested` / `_render_mapping_at_level` / `_render_sequence_at_level`:
lines for a payload, two spaces of indentation per level, per-level bullet
numbering starting at 1.  `renderMapping`/`renderSequence` carry the
1-based enumeration index of the next entry. -/
def renderNested (v : Val) (level : Nat) (ordered : Bool) : List (List Char) :=
  match v with
  | .vstr s => [indent level ++ bulletLabel 1 ordered ++ ' ' :: pyStrip s]
  | .vmap m => renderMapping m level ordered 1
  | .vlist xs => renderSequence xs level ordered 1
  | v => [indent level ++ bulletLabel 1 ordered ++ ' ' :: pyStrip (pyStr v)]
where
  renderMapping (m : List (List Char × Val)) (level : Nat) (ordered : Bool)
      (idx : Nat) : List (List Char) :=
    match m with
    | [] => []
    | kv :: rest =>
        (if isNested kv.2 then
          (indent level ++ bulletLabel idx ordered ++ ' ' :: pyStrip kv.1) ::
          renderNested kv.2 (level + 1) ordered
         else
          match kv.2 with
          | .vnone => [indent level ++ bulletLabel idx ordered ++ ' ' :: pyStrip kv.1]
          | w => [indent level ++ bulletLabel idx ordered ++ ' ' ::
                    pyStrip kv.1 ++ ':' :: ' ' :: pyStrip (pyStr w)]) ++
        renderMapping rest level ordered (idx + 1)
  renderSequence (xs : List Val) (level : Nat) (ordered : Bool) (idx : Nat) :
      List (List Char) :=
    match xs with
    | [] => []
    | item :: rest =>
        (match item with
         -- 1) single-key dict shorthand (same rules as a mapping entry)
         | .vmap [kv] =>
             if isNested kv.2 then
               (indent level ++ bulletLabel idx ordered ++ ' ' :: pyStrip kv.1) ::
               renderNested kv.2 (level + 1) ordered
             else
               match kv.2 with
               | .vnone => [indent level ++ bulletLabel idx ordered ++ ' ' :: pyStrip kv.1]
               | w => [indent level ++ bulletLabel idx ordered ++ ' ' ::
                         pyStrip kv.1 ++ ':' :: ' ' :: pyStrip (pyStr w)]
         -- 2) pair style ["Label", children] (elements past index 1 ignored)
         | .vlist (.vstr label :: tail) =>
             (indent level ++ bulletLabel idx ordered ++ ' ' :: pyStrip label) ::
             (match tail with
              | [] => []
              | children :: _ =>
                  if isNested children then renderNested children (level + 1) ordered
                  else
                    match children with
                    | .vnone => []
                    | c => [indent (level + 1) ++ bulletLabel 1 ordered ++ ' ' ::
                              pyStrip (pyStr c)])
         -- 3) other mapping: placeholder bullet, keys as siblings one level deeper
         | .vmap m =>
             (indent level ++ bulletLabel idx ordered) ::
             renderMapping m (level + 1) ordered 1
         -- 4) nested sequence without a label: anonymous group
         | .vlist xs2 =>
             (indent level ++ bulletLabel idx ordered) ::
             renderSequence xs2 (level + 1) ordered 1
         -- 5) plain scalar; empty after strip ⇒ skipped entirely
         | item =>
             let s := pyStrip (pyStr item)
             if s.isEmpty then [] else [indent level ++ bulletLabel idx ordered ++ ' ' :: s]) ++
        renderSequence rest level ordered (idx + 1)

/-- `re.sub(r"\n{3,}", "\n\n", s)`: each maximal run of three or more
newlines becomes exactly two.  `pending` counts the newlines of the run
currently being scanned. -/
def collapseGo : List Char → Nat → List Char
  | [], pending => List.replicate (if pending ≥ 3 then 2 else pending) '\n'
  | '\n' :: rest, pending => collapseGo rest (pending + 1)
  | c :: rest, pending =>
      List.replicate (if pending ≥ 3 then 2 else pending) '\n' ++ c :: collapseGo rest 0

/-- Collapse runs of three or more newlines to two. -/
def collapseNewlines (cs : List Char) : List Char := collapseGo cs 0

/-- `_coerce_to_str(value, ordered=...)`: strings are stripped and their
blank-line runs collapsed; mappings/sequences are rendered and joined with
newlines; other scalars are stringified and stripped. -/
def coerceToStr (v : Val) (ordered : Bool) : List Char :=
  match v with
  | .vstr s => collapseNewlines (pyStrip s)
  | .vmap _ => joinSep ['\n'] (renderNested v 0 ordered)
  | .vlist _ => joinSep ['\n'] (renderNested v 0 ordered)
  | v => pyStrip (pyStr v)

/-! ## Sections and the builder -/

/-- The `Section` dataclass. -/
structure Section where
  name : List Char
  content : List Char
  max_chars : Option Int
  title : Option (List Char)
  include_if : Option (List (List Char × Val))
  header_size : Int
deriving Inhabited

/-- `Section._header(context)`: `none` when there is no (truthy) title;
otherwise interpolate the title when a context is supplied, use it verbatim
if it already starts (after left-strip) with `#`, else compose
`'#' * clamp(header_size, 1, 6) + ' ' + text`, stripped.  The outer
`Option` is the exception monad of `_apply_macros`. -/
def headerE (sec : Section) (context : Option Val) : Option (Option (List Char)) :=
  match sec.title with
  | none => some none
  | some t =>
      if t.isEmpty then some none
      else
        match (match context with | some c => applyMacros t c | none => some t) with
        | none => none
        | some headerText =>
            if (pyLStrip headerText).head? = some '#' then some (some headerText)
            else
              let hs := if sec.header_size = 0 then 1 else sec.header_size
              let lvl := max 1 (min 6 hs)
              some (some (pyStrip (List.replicate lvl.toNat '#' ++ ' ' :: headerText)))

/-- Python slice `s[:m]` for an arbitrary int bound. -/
def pySliceTo (s : List Char) (m : Int) : List Char :=
  if m < 0 then s.take (s.length - m.natAbs) else s.take m.toNat

/-- `Section.render(context)` together with the section's post-state: the
method assigns no attribute, so the returned section is the input
unchanged; the `Option` is the exception monad of `_apply_macros`.  Strips
the content, truncates when `max_chars` is truthy and exceeded (appending
an ellipsis after right-stripping), interpolates when a context is
supplied and a `{{` marker occurs, then attaches the header. -/
def renderSt (sec : Section) (context : Option Val) :
    Option (List Char) × Section :=
  let s0 := pyStrip sec.content
  let s1 :=
    match sec.max_chars with
    | some m => if ¬ m = 0 ∧ (s0.length : Int) > m
                then pyRStrip (pySliceTo s0 m) ++ ['…'] else s0
    | none => s0
  let s2E :=
    match context with
    | some c =>
        if containsSeq (lc "\x7b\x7b") s1 || containsSeq (lc "\x7b\x7b\x7b") s1
        then applyMacros s1 c else some s1
    | none => some s1
  match s2E with
  | none => (none, sec)
  | some s2 =>
      match headerE sec context with
      | none => (none, sec)
      | some none => (some s2, sec)
      | some (some h) =>
          if ¬ h.isEmpty then
            (if ¬ s2.isEmpty then some (h ++ '\n' :: s2) else some [], sec)
          else (some s2, sec)

/-- `Section.render(context)`, result only. -/
def Section.render (sec : Section) (context : Option Val) : Option (List Char) :=
  (renderSt sec context).1

/-- The `PromptBuilder` dataclass: insertion-ordered section mapping,
metadata bag, explicit order list. -/
structure PromptBuilder where
  sections : List (List Char × Section)
  meta : List (List Char × Val)
  order : List (List Char)

/-- `d[k] = v` on an insertion-ordered dict: replace in place when the key
exists, else append. -/
def odSet : List (List Char × Section) → List Char → Section →
    List (List Char × Section)
  | [], k, v => [(k, v)]
  | kv :: rest, k, v =>
      if kv.1 = k then (kv.1, v) :: rest else kv :: odSet rest k v

/-- `d.get(k)` on the section mapping. -/
def odGet (m : List (List Char × Section)) (k : List Char) : Option Section :=
  (m.find? (fun kv => kv.1 = k)).map (fun kv => kv.2)

/-- `PromptBuilder.set(...)`: coerce the payload, build the section, store
it under its name, append the name to the order list only when new. -/
def PromptBuilder.set (b : PromptBuilder) (name : List Char) (value : Val)
    (title : Option (List Char)) (max_chars : Option Int) (ordered : Bool)
    (include_if : Option (List (List Char × Val))) (header_size : Int) :
    PromptBuilder :=
  let rendered := coerceToStr value ordered
  PromptBuilder.mk
    (odSet b.sections name (Section.mk name rendered max_chars title include_if header_size))
    b.meta
    (if name ∈ b.order then b.order else b.order ++ [name])

/-- `PromptBuilder.append(name, more, ordered=...)`: create via `set` when
the section is absent; otherwise concatenate the coerced payload below the
existing content (newline-joined, stripped), preserving every other field
and the order list. -/
def PromptBuilder.append (b : PromptBuilder) (name : List Char) (more : Val)
    (ordered : Bool) : PromptBuilder :=
  match odGet b.sections name with
  | none => b.set name more none none ordered none 1
  | some existing =>
      let added := coerceToStr more ordered
      let newContent := pyStrip (existing.content ++ '\n' :: added)
      PromptBuilder.mk
        (odSet b.sections name
          (Section.mk name newContent existing.max_chars existing.title
            existing.include_if existing.header_size))
        b.meta b.order

/-- `PromptBuilder.add_section(section, replace=..., copy=...)` returning
the post-state and the raised `ValueError` message, if any.  The duplicate
check precedes every mutation, so the state is unchanged on raise.
`deepcopy` is the identity in this value semantics, so the `copy` flag has
no observable effect here. -/
def PromptBuilder.add_section (b : PromptBuilder) (s : Section)
    (replace : Bool) (_copy : Bool) : PromptBuilder × Option (List Char) :=
  let exists_ := (odGet b.sections s.name).isSome
  if exists_ ∧ replace = false then
    (b, some (lc "Section '" ++ s.name ++ lc "' already exists; set replace=True to overwrite."))
  else
    (PromptBuilder.mk (odSet b.sections s.name s) b.meta
      (if exists_ then b.order else b.order ++ [s.name]), none)

/-- The `for n in self.sections: if n not in self.order: self.order.append(n)`
loop of `set_order`. -/
def appendMissing (o : List (List Char)) : List (List Char) → List (List Char)
  | [] => o
  | n :: rest => appendMissing (if n ∈ o then o else o ++ [n]) rest

/-- `PromptBuilder.set_order(names)`: keep the given names that exist, then
append every section name not yet listed. -/
def PromptBuilder.set_order (b : PromptBuilder) (names : List (List Char)) :
    PromptBuilder :=
  PromptBuilder.mk b.sections b.meta
    (appendMissing (names.filter (fun n => (odGet b.sections n).isSome))
      (b.sections.map (fun kv => kv.1)))

/-- `PromptBuilder.remove(name)`: drop the section and its order entry;
no-op when absent. -/
def PromptBuilder.remove (b : PromptBuilder) (name : List Char) : PromptBuilder :=
  PromptBuilder.mk (b.sections.filter (fun kv => ¬ kv.1 = name)) b.meta
    (b.order.filter (fun n => ¬ n = name))

/-- The skip test `sec.include_if and not _conditions_match(...)` of
`compile`. -/
def skipSection (sec : Section) (context : Option Val) : Bool :=
  match sec.include_if with
  | some conds => ¬ conds.isEmpty && ¬ conditionsMatch conds context
  | none => false

/-- The section loop of `PromptBuilder.compile`, threading the builder
state (each iteration re-stores the section returned by `renderSt`, which
performs no mutation).  `none` models an uncaught exception: a `KeyError`
when an order entry has no section, or an `IndexError` from
`_apply_macros`.  Returns the collected parts in order. -/
def compileGo (context : Option Val) (ie : Bool) :
    PromptBuilder → List (List Char) → List (List Char) →
    Option (List (List Char)) × PromptBuilder
  | b, [], parts => (some parts.reverse, b)
  | b, name :: rest, parts =>
      match odGet b.sections name with
      | none => (none, b)
      | some sec =>
          if skipSection sec context then compileGo context ie b rest parts
          else
            let r := renderSt sec context
            let b2 := PromptBuilder.mk (odSet b.sections name r.2) b.meta b.order
            match r.1 with
            | none => (none, b2)
            | some rendered =>
                if ¬ rendered.isEmpty then
                  compileGo context ie b2 rest (rendered :: parts)
                else if ie then
                  match headerE r.2 context with
                  | none => (none, b2)
                  | some h => compileGo context ie b2 rest ((h.getD []) :: parts)
                else compileGo context ie b2 rest parts

/-- `PromptBuilder.compile(context=..., joiner=..., include_empty=...)`
with its post-state: join the kept parts, dropping empty ones unless
`include_empty`. -/
def compileSt (b : PromptBuilder) (context : Option Val) (joiner : List Char)
    (include_empty : Bool) : Option (List Char) × PromptBuilder :=
  match compileGo context include_empty b b.order [] with
  | (none, b2) => (none, b2)
  | (some parts, b2) =>
      (some (joinSep joiner (if include_empty then parts
                             else parts.filter (fun p => ¬ p.isEmpty))), b2)

/-- `PromptBuilder.compile(...)`, result only. -/
def PromptBuilder.compile (b : PromptBuilder) (context : Option Val)
    (joiner : List Char) (include_empty : Bool) : Option (List Char) :=
  (compileSt b context joiner include_empty).1

/-! ## Serialization (`to_dict` / `from_dict`) -/

/-- The per-section dictionary produced by `to_dict`. -/
structure SectionDict where
  name : List Char
  content : List Char
  max_chars : Option Int
  title : Option (List Char)
  include_if : Option (List (List Char × Val))
  header_size : Int

/-- The top-level dictionary produced by `to_dict`. -/
structure BuilderDict where
  meta : List (List Char × Val)
  order : List (List Char)
  sections : List (List Char × SectionDict)

/-- `PromptBuilder.to_dict()`. -/
def PromptBuilder.to_dict (b : PromptBuilder) : BuilderDict :=
  BuilderDict.mk b.meta b.order
    (b.sections.map (fun kv =>
      (kv.1, SectionDict.mk kv.2.name kv.2.content kv.2.max_chars kv.2.title
        kv.2.include_if kv.2.header_size)))

/-- The section-insertion loop of `from_dict`: successive
`pb.sections[name] = Section(...)` assignments. -/
def fromDictSections : List (List Char × SectionDict) →
    List (List Char × Section) → List (List Char × Section)
  | [], acc => acc
  | (name, sd) :: rest, acc =>
      fromDictSections rest
        (odSet acc name
          (Section.mk sd.name sd.content sd.max_chars sd.title sd.include_if
            sd.header_size))

/-- `PromptBuilder.from_dict(data)` for a dictionary carrying all fields
(as every dictionary produced by `to_dict` does; the `.get` fallbacks for
hand-written dictionaries are outside the claims). -/
def PromptBuilder.from_dict (d : BuilderDict) : PromptBuilder :=
  PromptBuilder.mk (fromDictSections d.sections []) d.meta d.order


/-! ## Helper lemmas -/
/-- `doubleLoop` leaves any text without `{` unchanged. -/
theorem doubleLoop_no_open (ctx : Val) :
    ∀ (fuel : Nat) (cs : List Char), (∀ c ∈ cs, ¬ c = '{') →
    doubleLoop ctx fuel cs = cs := by
  intro fuel
  induction fuel with
  | zero => intro cs _; rfl
  | succ n ih =>
      intro cs h
      match cs with
      | [] => rfl
      | c :: rest =>
          have hc : ¬ c = '{' := h c (by simp)
          have hr : doubleLoop ctx n rest = rest :=
            ih rest (fun d hd => h d (by simp [hd]))
          simp only [doubleLoop]
          split
          · next r heq => injection heq with h1 _; exact absurd h1 hc
          · next c2 r2 _ heq =>
              injection heq with h1 h2
              subst h1; subst h2; rw [hr]
          · next heq => exact absurd heq (by simp)

/-- Setting then reading the same key yields the stored section. -/
theorem odGet_odSet_self : ∀ (m : List (List Char × Section)) (k : List Char) (v : Section),
    odGet (odSet m k v) k = some v
  | [], k, v => by simp [odSet, odGet]
  | kv :: rest, k, v => by
      by_cases hk : kv.1 = k
      · simp [odSet, hk, odGet]
      · simp only [odSet, if_neg hk, odGet]
        rw [List.find?_cons_of_neg _ (by simp [hk])]
        exact odGet_odSet_self rest k v



/-- C1: Rendering the workflow payload ordered produces exactly the five
lines, with two spaces of indentation per nesting level and the ordered
numbering restarting at 1 at the nested level. -/
theorem C1_per_level_numbering :
    renderNested
      (Val.vlist [Val.vstr (lc "Collect data"),
        Val.vmap [(lc "Preprocess",
          Val.vlist [Val.vstr (lc "Clean"), Val.vstr (lc "Normalize")])],
        Val.vstr (lc "Analyze")]) 0 true =
    [lc "1. Collect data", lc "2. Preprocess", lc "  1. Clean",
     lc "  2. Normalize", lc "3. Analyze"] := by decide

/-- C2 (counterexample): interpolating the Example-4 text over the empty
context yields `"Literal:  {{not_a_var}} "` with a trailing space — the
span body `" {{not_a_var}} "` is restored verbatim — so the claimed output
`"Literal:  {{not_a_var}}"` is wrong. -/
theorem C2_counterexample :
    applyMacros (lc "Literal: {{{ {{not_a_var}} }}}") (Val.vmap []) =
      some (lc "Literal:  {{not_a_var}} ") ∧
    ¬ (lc "Literal:  {{not_a_var}} " = lc "Literal:  {{not_a_var}}") := by
  constructor
  · decide
  · decide

/-- C2 (amended): for every context in which `not_a_var` is absent,
interpolating `"Literal: {{{ {{not_a_var}} }}}"` yields exactly
`"Literal:  {{not_a_var}} "` (trailing space included): the triple span's
inner text is restored verbatim and never itself interpolated. -/
theorem C2_triple_protection (ctx : Val)
    (_h : lookup (lc "not_a_var") ctx = Val.vnone) :
    applyMacros (lc "Literal: {{{ {{not_a_var}} }}}") ctx =
      some (lc "Literal:  {{not_a_var}} ") := by
  have h1 : tripleLoop ((lc "Literal: {{{ {{not_a_var}} }}}").length + 1)
      (lc "Literal: {{{ {{not_a_var}} }}}") [] =
      (lc "Literal: " ++ sentTok 0, [lc " {{not_a_var}} "]) := by decide
  have h2 : doubleLoop ctx ((lc "Literal: " ++ sentTok 0).length + 1)
      (lc "Literal: " ++ sentTok 0) = lc "Literal: " ++ sentTok 0 :=
    doubleLoop_no_open ctx _ _ (by decide)
  simp only [applyMacros, h1, h2]
  decide

theorem C2_witness :
    lookup (lc "not_a_var") (Val.vmap []) = Val.vnone ∧
    applyMacros (lc "Literal: {{{ {{not_a_var}} }}}") (Val.vmap []) =
      some (lc "Literal:  {{not_a_var}} ") :=
  ⟨rfl, C2_triple_protection (Val.vmap []) rfl⟩



/-- C5 (counterexample): with `max_chars = 0` — a non-negative integer —
and content `"A"` (trimmed length 1 > 0), `Section.render` performs no
truncation (`0` is falsy in `if self.max_chars`) and returns `"A"`, not
the required first-0-characters-plus-ellipsis `"…"`. -/
theorem C5_counterexample :
    (Section.mk (lc "s") (lc "A") (some 0) none none 1).render none = some (lc "A") ∧
    ¬ ((lc "A") = pyRStrip ((pyStrip (lc "A")).take (0 : Int).toNat) ++ ['…']) := by
  constructor
  · rfl
  · decide

/-- C5 (amended): for every *positive* `max_chars = n` and stored content
whose trimmed form is longer than `n`, `render` returns the first `n`
characters of the trimmed content, right-stripped, followed by a single
ellipsis character. -/
theorem C5_truncation (name content : List Char) (n : Int)
    (hpos : 0 < n) (hlen : n < ((pyStrip content).length : Int)) :
    (Section.mk name content (some n) none none 1).render none =
      some (pyRStrip ((pyStrip content).take n.toNat) ++ ['…']) := by
  have hcond : (¬ n = 0 ∧ ((pyStrip content).length : Int) > n) := ⟨by omega, by omega⟩
  simp only [Section.render, renderSt, headerE, pySliceTo, if_pos hcond,
    if_neg (show ¬ n < 0 by omega)]

theorem C5_witness :
    (Section.mk (lc "long") (lc "AAAAAAAAAA") (some 5) none none 1).render none =
      some (lc "AAAAA…") := by
  rw [C5_truncation (lc "long") (lc "AAAAAAAAAA") 5 (by decide) (by decide)]
  decide

/-- C9: `set` with a string payload stores the payload stripped of leading
and trailing whitespace with every run of three or more newlines collapsed
to two; the second conjunct shows the stored content is therefore not
always the supplied string verbatim. -/
theorem C9_string_payload_normalized :
    (∀ (b : PromptBuilder) (name p : List Char) (title : Option (List Char))
       (mc : Option Int) (ordered : Bool) (ii : Option (List (List Char × Val)))
       (hs : Int),
      (odGet ((b.set name (Val.vstr p) title mc ordered ii hs).sections) name).map
          Section.content = some (collapseNewlines (pyStrip p))) ∧
    ∃ p : List Char, ¬ collapseNewlines (pyStrip p) = p := by
  constructor
  · intro b name p title mc ordered ii hs
    simp only [PromptBuilder.set, coerceToStr]
    rw [odGet_odSet_self]
    rfl
  · exact ⟨lc " a", by decide⟩

/-- `Section.render` assigns no field: its post-state is its input. -/
theorem renderSt_state (sec : Section) (ctx : Option Val) : (renderSt sec ctx).2 = sec := by
  unfold renderSt
  dsimp only
  repeat' first
  | rfl
  | split

/-- Re-storing the section found under a key is a no-op. -/
theorem odSet_self : ∀ (m : List (List Char × Section)) (k : List Char) (v : Section),
    odGet m k = some v → odSet m k v = m
  | [], _, v => by simp [odGet]
  | kv :: rest, k, v => by
      by_cases hk : kv.1 = k
      · intro h
        have hv : v = kv.2 := by
          simp only [odGet] at h
          rw [List.find?_cons_of_pos _ (by simp [hk])] at h
          simp at h
          exact h.symm
        subst hv
        simp only [odSet, if_pos hk]
      · intro h
        have h2 : odGet rest k = some v := by
          simp only [odGet] at h ⊢
          rwa [List.find?_cons_of_neg _ (by simp [hk])] at h
        simp [odSet, hk, odSet_self rest k v h2]

/-- The compile loop returns the builder it was given. -/
theorem compileGo_state (context : Option Val) (ie : Bool) :
    ∀ (names parts : List (List Char)) (bb : PromptBuilder),
    (compileGo context ie bb names parts).2 = bb := by
  intro names
  induction names with
  | nil => intro parts bb; rfl
  | cons name rest ih =>
      intro parts bb
      simp only [compileGo]
      cases hsec : odGet bb.sections name with
      | none => rfl
      | some sec =>
          simp only []
          by_cases hskip : skipSection sec context
          · simp [hskip, ih]
          · simp only [hskip, Bool.false_eq_true, if_false]
            have hb2 : PromptBuilder.mk (odSet bb.sections name (renderSt sec context).2)
                bb.meta bb.order = bb := by
              rw [renderSt_state, odSet_self bb.sections name sec hsec]
            rw [hb2]
            cases hr : (renderSt sec context).1 with
            | none => rfl
            | some rendered =>
                simp only []
                by_cases hre : rendered.isEmpty = true
                · rw [if_neg (by simp [hre])]
                  by_cases hie : ie = true
                  · rw [if_pos hie]
                    cases hh : headerE (renderSt sec context).2 context with
                    | none => rfl
                    | some h => exact ih _ _
                  · rw [if_neg hie]
                    exact ih _ _
                · rw [if_pos (by simp [hre])]
                  exact ih _ _

/-- C10: compile is read-only — for every builder state, context, joiner
and include_empty flag, the builder state threaded through the compile
loop (and through every `Section.render` call it performs) comes back
unchanged. -/
theorem C10_compile_read_only (b : PromptBuilder) (context : Option Val)
    (joiner : List Char) (ie : Bool) :
    (compileSt b context joiner ie).2 = b := by
  unfold compileSt
  have h := compileGo_state context ie b.order [] b
  cases hc : compileGo context ie b b.order [] with
  | mk res b2 =>
      rw [hc] at h
      cases res <;> simpa using h



/-- C8: `add_section` raises the duplicate-section `ValueError` iff a
section with the given name exists and `replace` is false; when it raises,
the builder is left unchanged; when it does not raise, the section is
stored under its name and the name is appended to the order list only if
it was new. -/
theorem C8_add_section_duplicate (b : PromptBuilder) (s : Section)
    (replace copy : Bool) :
    ((b.add_section s replace copy).2.isSome ↔
       ((odGet b.sections s.name).isSome ∧ replace = false)) ∧
    ((b.add_section s replace copy).2.isSome → (b.add_section s replace copy).1 = b) ∧
    ((b.add_section s replace copy).2 = none →
       odGet (b.add_section s replace copy).1.sections s.name = some s ∧
       (b.add_section s replace copy).1.order =
         (if (odGet b.sections s.name).isSome then b.order else b.order ++ [s.name])) := by
  unfold PromptBuilder.add_section
  by_cases hx : (odGet b.sections s.name).isSome ∧ replace = false
  · rw [if_pos hx]
    refine ⟨by simpa using hx, fun _ => rfl, fun hcon => by simp at hcon⟩
  · rw [if_neg hx]
    refine ⟨by simpa using hx, by simp, fun _ => ⟨odGet_odSet_self _ _ _, ?_⟩⟩
    by_cases he : (odGet b.sections s.name).isSome
    · simp [he]
    · simp [he]

theorem C8_witness :
    odGet ((PromptBuilder.mk [] [] []).add_section
        (Section.mk (lc "x") (lc "c") none none none 1) false true).1.sections
      (lc "x") = some (Section.mk (lc "x") (lc "c") none none none 1) ∧
    ((PromptBuilder.mk [] [] []).add_section
        (Section.mk (lc "x") (lc "c") none none none 1) false true).1.order =
      (if (odGet (PromptBuilder.mk [] [] []).sections (lc "x")).isSome
       then (PromptBuilder.mk [] [] []).order
       else (PromptBuilder.mk [] [] []).order ++ [lc "x"]) :=
  (C8_add_section_duplicate (PromptBuilder.mk [] [] [])
    (Section.mk (lc "x") (lc "c") none none none 1) false true).2.2 rfl

/-- Storing a fresh key appends the pair. -/
theorem odSet_append_fresh :
    ∀ (m : List (List Char × Section)) (k : List Char) (v : Section),
    ¬ k ∈ m.map (fun kv => kv.1) → odSet m k v = m ++ [(k, v)]
  | [], _, _, _ => rfl
  | kv :: rest, k, v, h => by
      have hk : ¬ kv.1 = k := by
        intro he
        exact h (by simp [he])
      simp only [odSet, if_neg hk, List.cons_append, List.cons.injEq, true_and]
      exact odSet_append_fresh rest k v (fun hc => h (by simp at hc ⊢; exact Or.inr hc))

/-- Rebuilding the serialized sections with fresh keys reproduces them. -/
theorem fromDictSections_of_toDict :
    ∀ (s acc : List (List Char × Section)),
    (∀ k ∈ s.map (fun kv => kv.1), ¬ k ∈ acc.map (fun kv => kv.1)) →
    (s.map (fun kv => kv.1)).Nodup →
    fromDictSections (s.map (fun kv =>
      (kv.1, SectionDict.mk kv.2.name kv.2.content kv.2.max_chars kv.2.title
        kv.2.include_if kv.2.header_size))) acc = acc ++ s
  | [], acc, _, _ => by simp [fromDictSections]
  | (k, sec) :: rest, acc, hdisj, hnodup => by
      simp only [List.map_cons] at hnodup
      rw [List.nodup_cons] at hnodup
      simp only [List.map_cons, fromDictSections]
      rw [show (Section.mk sec.name sec.content sec.max_chars sec.title
        sec.include_if sec.header_size) = sec from rfl]
      rw [odSet_append_fresh acc k sec (hdisj k (by simp))]
      rw [fromDictSections_of_toDict rest (acc ++ [(k, sec)])
        (by
          intro k2 hk2
          simp only [List.map_append, List.mem_append, List.map_cons] at hk2 ⊢
          rintro (hin | heq)
          · exact hdisj k2 (by simp [hk2]) hin
          · simp at heq
            rw [heq] at hk2
            exact hnodup.1 hk2)
        hnodup.2]
      simp

/-- Serializing with `to_dict` and deserializing with `from_dict` restores
the builder state exactly (given the dict representation invariant that
section keys are unique, which every reachable Python state has). -/
theorem from_dict_to_dict (b : PromptBuilder)
    (hwf : (b.sections.map (fun kv => kv.1)).Nodup) :
    PromptBuilder.from_dict b.to_dict = b := by
  unfold PromptBuilder.from_dict PromptBuilder.to_dict
  simp only []
  rw [fromDictSections_of_toDict b.sections [] (by simp) hwf]
  rfl

/-- C3: for every builder state (with unique section keys, the dict
representation invariant every reachable Python state has) and every
context, compiling after a `to_dict`/`from_dict` round trip with the same
context, joiner and include_empty arguments returns a string identical to
the original compile. -/
theorem C3_roundtrip_compile (b : PromptBuilder) (context : Option Val)
    (joiner : List Char) (ie : Bool)
    (hwf : (b.sections.map (fun kv => kv.1)).Nodup) :
    (PromptBuilder.from_dict b.to_dict).compile context joiner ie =
      b.compile context joiner ie := by
  rw [from_dict_to_dict b hwf]

theorem C3_witness :
    (PromptBuilder.from_dict (PromptBuilder.mk
        [(lc "role", Section.mk (lc "role") (lc "You are {{user.role}}.") none
           (some (lc "Role")) none 1)] [] [lc "role"]).to_dict).compile
      (some (Val.vmap [(lc "user", Val.vmap [(lc "role", Val.vstr (lc "tester"))])]))
      (lc "\n\n") false =
    (PromptBuilder.mk
        [(lc "role", Section.mk (lc "role") (lc "You are {{user.role}}.") none
           (some (lc "Role")) none 1)] [] [lc "role"]).compile
      (some (Val.vmap [(lc "user", Val.vmap [(lc "role", Val.vstr (lc "tester"))])]))
      (lc "\n\n") false :=
  C3_roundtrip_compile _ _ _ _ (by decide)

/-- C6: a list-valued `includeIf` expectation is a membership test — with a
context the conditions match exactly when the value resolved at the dotted
path equals one element of the list, and a non-empty condition set with an
absent context never matches — and on the Example-3 builder `compile`
includes the section for role `owner`, excludes it for role `member`, and
excludes it with no context. -/
theorem C6_include_if_membership :
    (∀ (k : List Char) (es : List Val) (ctx : Val),
      (conditionsMatch [(k, Val.vlist es)] (some ctx) = true ↔
        ∃ e ∈ es, pyEq (lookup k ctx) e = true)) ∧
    (∀ conds : List (List Char × Val), ¬ conds.isEmpty = true →
      conditionsMatch conds none = false) ∧
    ((PromptBuilder.mk [] [] []).set (lc "admin-tools") (Val.vstr (lc "tools")) none none false
        (some [(lc "user.role", Val.vlist [Val.vstr (lc "admin"), Val.vstr (lc "owner")])]) 1).compile
      (some (Val.vmap [(lc "user", Val.vmap [(lc "role", Val.vstr (lc "owner"))])]))
      (lc "\n\n") false = some (lc "tools") ∧
    ((PromptBuilder.mk [] [] []).set (lc "admin-tools") (Val.vstr (lc "tools")) none none false
        (some [(lc "user.role", Val.vlist [Val.vstr (lc "admin"), Val.vstr (lc "owner")])]) 1).compile
      (some (Val.vmap [(lc "user", Val.vmap [(lc "role", Val.vstr (lc "member"))])]))
      (lc "\n\n") false = some [] ∧
    ((PromptBuilder.mk [] [] []).set (lc "admin-tools") (Val.vstr (lc "tools")) none none false
        (some [(lc "user.role", Val.vlist [Val.vstr (lc "admin"), Val.vstr (lc "owner")])]) 1).compile
      none (lc "\n\n") false = some [] := by
  refine ⟨?_, ?_, by decide, by decide, by decide⟩
  · intro k es ctx
    simp [conditionsMatch, List.any_eq_true]
  · intro conds h
    cases conds with
    | nil => simp at h
    | cons kv rest => simp [conditionsMatch]

theorem C6_witness :
    conditionsMatch
      [(lc "user.role", Val.vlist [Val.vstr (lc "admin"), Val.vstr (lc "owner")])]
      (some (Val.vmap [(lc "user", Val.vmap [(lc "role", Val.vstr (lc "owner"))])])) = true ∧
    conditionsMatch [(lc "x", Val.vnone)] none = false :=
  ⟨(C6_include_if_membership.1 _ _ _).mpr
      ⟨Val.vstr (lc "owner"), by simp, by decide⟩,
   C6_include_if_membership.2.1 _ (by decide)⟩



/-- The §3 data-model invariant: the order list contains exactly the
section names present in the mapping, each exactly once. -/
def OrderInv (b : PromptBuilder) : Prop :=
  b.order.Nodup ∧ ∀ n, (n ∈ b.order ↔ n ∈ b.sections.map (fun kv => kv.1))

/-- `odGet` succeeds exactly on present keys. -/
theorem odGet_isSome_iff :
    ∀ (m : List (List Char × Section)) (k : List Char),
    (odGet m k).isSome ↔ k ∈ m.map (fun kv => kv.1)
  | [], k => by simp [odGet]
  | kv :: rest, k => by
      by_cases hk : kv.1 = k
      · have hfind : List.find? (fun kv2 : List Char × Section => decide (kv2.1 = k))
            (kv :: rest) = some kv := by
          rw [List.find?_cons_of_pos]
          simp [hk]
        simp only [odGet, hfind]
        simp [hk]
      · have hfind : List.find? (fun kv2 : List Char × Section => decide (kv2.1 = k))
            (kv :: rest) = List.find? (fun kv2 => decide (kv2.1 = k)) rest := by
          rw [List.find?_cons_of_neg]
          simp [hk]
        have hrest := odGet_isSome_iff rest k
        simp only [odGet] at hrest ⊢
        rw [hfind, hrest]
        simp only [List.map_cons, List.mem_cons]
        constructor
        · exact Or.inr
        · rintro (he | hm)
          · exact absurd he.symm hk
          · exact hm

/-- Storing under a present key keeps the key list. -/
theorem odSet_keys_mem :
    ∀ (m : List (List Char × Section)) (k : List Char) (v : Section),
    k ∈ m.map (fun kv => kv.1) →
    (odSet m k v).map (fun kv => kv.1) = m.map (fun kv => kv.1)
  | [], _, _, h => by simp at h
  | kv :: rest, k, v, h => by
      by_cases hk : kv.1 = k
      · simp [odSet, hk]
      · have hmem : k ∈ rest.map (fun kv => kv.1) := by
          simp only [List.map_cons, List.mem_cons] at h
          rcases h with h | h
          · exact absurd h.symm hk
          · exact h
        simp [odSet, hk, odSet_keys_mem rest k v hmem]

/-- Storing under a fresh key appends it to the key list. -/
theorem odSet_keys_new (m : List (List Char × Section)) (k : List Char)
    (v : Section) (h : ¬ k ∈ m.map (fun kv => kv.1)) :
    (odSet m k v).map (fun kv => kv.1) = m.map (fun kv => kv.1) ++ [k] := by
  rw [odSet_append_fresh m k v h]
  simp

/-- `set` preserves the order invariant. -/
theorem orderInv_set (b : PromptBuilder) (hInv : OrderInv b) (name : List Char)
    (value : Val) (title : Option (List Char)) (mc : Option Int) (ordered : Bool)
    (ii : Option (List (List Char × Val))) (hs : Int) :
    OrderInv (b.set name value title mc ordered ii hs) := by
  obtain ⟨hnd, hiff⟩ := hInv
  unfold PromptBuilder.set OrderInv
  simp only []
  by_cases hmem : name ∈ b.sections.map (fun kv => kv.1)
  · rw [odSet_keys_mem _ _ _ hmem, if_pos ((hiff name).mpr hmem)]
    exact ⟨hnd, hiff⟩
  · have hnord : ¬ name ∈ b.order := fun hc => hmem ((hiff name).mp hc)
    rw [odSet_keys_new _ _ _ hmem, if_neg hnord]
    constructor
    · simp only [List.nodup_append, List.nodup_cons, List.not_mem_nil,
        not_false_iff, List.nodup_nil, and_true, true_and]
      exact ⟨hnd, fun a ha => by
        simp only [List.mem_singleton]
        intro he
        rw [he] at ha
        exact hnord ha⟩
    · intro n
      simp only [List.mem_append, List.mem_singleton, hiff n]

/-- `append` preserves the order invariant. -/
theorem orderInv_append (b : PromptBuilder) (hInv : OrderInv b)
    (name : List Char) (more : Val) (ordered : Bool) :
    OrderInv (b.append name more ordered) := by
  unfold PromptBuilder.append
  cases hget : odGet b.sections name with
  | none => exact orderInv_set b hInv name more none none ordered none 1
  | some existing =>
      obtain ⟨hnd, hiff⟩ := hInv
      have hmem : name ∈ b.sections.map (fun kv => kv.1) :=
        (odGet_isSome_iff b.sections name).mp (by simp [hget])
      exact ⟨hnd, fun n => by
        simpa [odSet_keys_mem _ _ _ hmem] using hiff n⟩

/-- `add_section` preserves the order invariant (both on raise, which
leaves the state unchanged, and on success). -/
theorem orderInv_add_section (b : PromptBuilder) (hInv : OrderInv b)
    (s : Section) (replace copy : Bool) :
    OrderInv (b.add_section s replace copy).1 := by
  obtain ⟨hnd, hiff⟩ := hInv
  unfold PromptBuilder.add_section
  by_cases hx : (odGet b.sections s.name).isSome ∧ replace = false
  · rw [if_pos hx]
    exact ⟨hnd, hiff⟩
  · rw [if_neg hx]
    by_cases he : (odGet b.sections s.name).isSome
    · have hmem := (odGet_isSome_iff b.sections s.name).mp he
      refine ⟨?_, ?_⟩
      · simp only [he, if_true]
        exact hnd
      · intro n
        simp only [he, if_true, odSet_keys_mem _ _ _ hmem]
        exact hiff n
    · have hmem : ¬ s.name ∈ b.sections.map (fun kv => kv.1) :=
        fun hc => he ((odGet_isSome_iff b.sections s.name).mpr hc)
      have hnord : ¬ s.name ∈ b.order := fun hc => hmem ((hiff s.name).mp hc)
      refine ⟨?_, ?_⟩
      · simp only [he, if_false, Bool.false_eq_true]
        simp only [List.nodup_append, List.nodup_cons, List.not_mem_nil,
          not_false_iff, List.nodup_nil, and_true, true_and]
        exact ⟨hnd, fun a ha => by
          simp only [List.mem_singleton]
          intro hc
          rw [hc] at ha
          exact hnord ha⟩
      · intro n
        simp only [he, if_false, Bool.false_eq_true, odSet_keys_new _ _ _ hmem,
          List.mem_append, List.mem_singleton, hiff n]

/-- `remove` preserves the order invariant. -/
theorem orderInv_remove (b : PromptBuilder) (hInv : OrderInv b)
    (name : List Char) : OrderInv (b.remove name) := by
  obtain ⟨hnd, hiff⟩ := hInv
  have hkeys : ∀ (m : List (List Char × Section)),
      (m.filter (fun kv => ¬ kv.1 = name)).map (fun kv => kv.1) =
      (m.map (fun kv => kv.1)).filter (fun n => ¬ n = name) := by
    intro m
    induction m with
    | nil => rfl
    | cons kv rest ih =>
        simp only [decide_not] at ih
        by_cases hk : kv.1 = name
        · simp [List.filter_cons, hk, ih]
        · simp [List.filter_cons, hk, ih]
  unfold PromptBuilder.remove OrderInv
  simp only [hkeys]
  constructor
  · exact hnd.filter _
  · intro n
    simp only [List.mem_filter, hiff n]

/-- `appendMissing` keeps a duplicate-free accumulator duplicate-free. -/
theorem appendMissing_nodup :
    ∀ (ks o : List (List Char)), o.Nodup → (appendMissing o ks).Nodup
  | [], o, h => h
  | k :: ks, o, h => by
      by_cases hk : k ∈ o
      · rw [show appendMissing o (k :: ks) = appendMissing o ks from by
          simp [appendMissing, hk]]
        exact appendMissing_nodup ks o h
      · rw [show appendMissing o (k :: ks) = appendMissing (o ++ [k]) ks from by
          simp [appendMissing, hk]]
        refine appendMissing_nodup ks (o ++ [k]) ?_
        simp only [List.nodup_append, List.nodup_cons, List.not_mem_nil,
          not_false_iff, List.nodup_nil, and_true, true_and]
        exact ⟨h, fun a ha => by
          simp only [List.mem_singleton]
          intro hc
          rw [hc] at ha
          exact hk ha⟩

/-- Membership after `appendMissing` is membership in either list. -/
theorem appendMissing_mem :
    ∀ (ks o : List (List Char)) (x : List Char),
    (x ∈ appendMissing o ks ↔ x ∈ o ∨ x ∈ ks)
  | [], o, x => by simp [appendMissing]
  | k :: ks, o, x => by
      by_cases hk : k ∈ o
      · rw [show appendMissing o (k :: ks) = appendMissing o ks from by
          simp [appendMissing, hk]]
        rw [appendMissing_mem ks o x]
        constructor
        · rintro (h | h)
          · exact Or.inl h
          · exact Or.inr (by simp [h])
        · rintro (h | h)
          · exact Or.inl h
          · rcases List.mem_cons.mp h with he | hm
            · rw [he] at *; exact Or.inl hk
            · exact Or.inr hm
      · rw [show appendMissing o (k :: ks) = appendMissing (o ++ [k]) ks from by
          simp [appendMissing, hk]]
        rw [appendMissing_mem ks (o ++ [k]) x]
        simp only [List.mem_append, List.mem_singleton, List.mem_cons]
        tauto

/-- `set_order` with duplicate-free names restores the order invariant. -/
theorem orderInv_set_order (b : PromptBuilder) (names : List (List Char))
    (hnames : names.Nodup) : OrderInv (b.set_order names) := by
  unfold PromptBuilder.set_order OrderInv
  simp only []
  constructor
  · exact appendMissing_nodup _ _ (hnames.filter _)
  · intro n
    rw [appendMissing_mem]
    constructor
    · rintro (h | h)
      · exact (odGet_isSome_iff b.sections n).mp ((List.mem_filter.mp h).2)
      · exact h
    · exact fun h => Or.inr h



/-- C4 (counterexample): the order invariant holds on a builder with one
section `"a"` and order `["a"]`, but `set_order(["a","a"])` — an input
sequence containing a repeat — leaves the order list `["a","a"]`, in which
`"a"` occurs twice, so the invariant is not preserved by every `set_order`
call. -/
theorem C4_counterexample :
    OrderInv (PromptBuilder.mk
      [(lc "a", Section.mk (lc "a") (lc "A") none none none 1)] [] [lc "a"]) ∧
    ¬ OrderInv ((PromptBuilder.mk
      [(lc "a", Section.mk (lc "a") (lc "A") none none none 1)] [] [lc "a"]).set_order
        [lc "a", lc "a"]) := by
  constructor
  · exact ⟨by decide, fun n => Iff.rfl⟩
  · intro h
    have horder : ((PromptBuilder.mk
        [(lc "a", Section.mk (lc "a") (lc "A") none none none 1)] [] [lc "a"]).set_order
          [lc "a", lc "a"]).order = [lc "a", lc "a"] := by decide
    have hnd := h.1
    rw [horder] at hnd
    exact (by decide : ¬ ([lc "a", lc "a"] : List (List Char)).Nodup) hnd

/-- C4 (amended): the invariant "the order list contains exactly the set
of section names present in the mapping, each exactly once" is preserved
by `set`, `append`, `add_section` (whether it raises or not) and `remove`
from every invariant-satisfying state, and by `set_order` for every input
sequence of pairwise-distinct names. -/
theorem C4_invariant_preservation (b : PromptBuilder) (hInv : OrderInv b)
    (name : List Char) (value : Val) (title : Option (List Char))
    (mc : Option Int) (ordered : Bool) (ii : Option (List (List Char × Val)))
    (hs : Int) (more : Val) (s : Section) (replace copy : Bool)
    (names : List (List Char)) (hnames : names.Nodup) :
    OrderInv (b.set name value title mc ordered ii hs) ∧
    OrderInv (b.append name more ordered) ∧
    OrderInv (b.add_section s replace copy).1 ∧
    OrderInv (b.set_order names) ∧
    OrderInv (b.remove name) :=
  ⟨orderInv_set b hInv name value title mc ordered ii hs,
   orderInv_append b hInv name more ordered,
   orderInv_add_section b hInv s replace copy,
   orderInv_set_order b names hnames,
   orderInv_remove b hInv name⟩

theorem C4_witness :
    OrderInv ((PromptBuilder.mk
        [(lc "a", Section.mk (lc "a") (lc "A") none none none 1)] [] [lc "a"]).set
      (lc "b") (Val.vstr (lc "B")) none none false none 1) ∧
    OrderInv ((PromptBuilder.mk
        [(lc "a", Section.mk (lc "a") (lc "A") none none none 1)] [] [lc "a"]).append
      (lc "b") (Val.vstr (lc "M")) false) ∧
    OrderInv ((PromptBuilder.mk
        [(lc "a", Section.mk (lc "a") (lc "A") none none none 1)] [] [lc "a"]).add_section
      (Section.mk (lc "c") (lc "C") none none none 1) true true).1 ∧
    OrderInv ((PromptBuilder.mk
        [(lc "a", Section.mk (lc "a") (lc "A") none none none 1)] [] [lc "a"]).set_order
      [lc "a"]) ∧
    OrderInv ((PromptBuilder.mk
        [(lc "a", Section.mk (lc "a") (lc "A") none none none 1)] [] [lc "a"]).remove
      (lc "b")) :=
  C4_invariant_preservation
    (PromptBuilder.mk [(lc "a", Section.mk (lc "a") (lc "A") none none none 1)] [] [lc "a"])
    ⟨by decide, fun n => Iff.rfl⟩
    (lc "b") (Val.vstr (lc "B")) none none false none 1
    (Val.vstr (lc "M")) (Section.mk (lc "c") (lc "C") none none none 1) true true
    [lc "a"] (by decide)



/-! ### Sentinel-freedom infrastructure for the macro-engine totality claim -/

/-- The text contains no placeholder sentinel character. -/
abbrev NoSent (cs : List Char) : Prop := ∀ c ∈ cs, ¬ c = sentChar

theorem digitChar_isDigit (r : Nat) : (digitChar r).isDigit = true := by
  unfold digitChar
  repeat' split
  all_goals decide

theorem digitChar_toNat (r : Nat) (h : r < 10) : (digitChar r).toNat = 48 + r := by
  interval_cases r <;> rfl

theorem isDigit_ne_sent {c : Char} (h : c.isDigit = true) : ¬ c = sentChar := by
  intro he; rw [he] at h; exact absurd h (by decide)

theorem isDigit_ne_open {c : Char} (h : c.isDigit = true) : ¬ c = '{' := by
  intro he; rw [he] at h; exact absurd h (by decide)

theorem isDigit_ne_close {c : Char} (h : c.isDigit = true) : ¬ c = '}' := by
  intro he; rw [he] at h; exact absurd h (by decide)

theorem natDigitsGo_acc :
    ∀ (fuel n : Nat) (acc : List Char),
    natDigitsGo fuel n acc = natDigitsGo fuel n [] ++ acc
  | 0, _, _ => rfl
  | fuel + 1, n, acc => by
      by_cases h : n < 10
      · simp [natDigitsGo, h]
      · simp only [natDigitsGo, if_neg h]
        rw [natDigitsGo_acc fuel (n / 10) (digitChar (n % 10) :: acc),
          natDigitsGo_acc fuel (n / 10) [digitChar (n % 10)]]
        simp

theorem natDigitsGo_fuel :
    ∀ (f1 : Nat), ∀ (f2 n : Nat) (acc : List Char), n < f1 → n < f2 →
    natDigitsGo f1 n acc = natDigitsGo f2 n acc
  | 0, _, n, _, h1, _ => absurd h1 (by omega)
  | _ + 1, 0, n, _, _, h2 => absurd h2 (by omega)
  | f1 + 1, f2 + 1, n, acc, h1, h2 => by
      by_cases h : n < 10
      · simp [natDigitsGo, h]
      · simp only [natDigitsGo, if_neg h]
        exact natDigitsGo_fuel f1 f2 (n / 10) _ (by omega) (by omega)



theorem natDigits_lt10 (n : Nat) (h : n < 10) : natDigits n = [digitChar n] := by
  simp [natDigits, natDigitsGo, h]

theorem natDigits_step (n : Nat) (h : ¬ n < 10) :
    natDigits n = natDigits (n / 10) ++ [digitChar (n % 10)] := by
  unfold natDigits
  rw [show natDigitsGo (n + 1) n [] = natDigitsGo n (n / 10) [digitChar (n % 10)] from by
    simp [natDigitsGo, h]]
  rw [natDigitsGo_acc n (n / 10) [digitChar (n % 10)]]
  rw [natDigitsGo_fuel n (n / 10 + 1) (n / 10) [] (by omega) (by omega)]

theorem natDigits_all_digit (n : Nat) : ∀ c ∈ natDigits n, c.isDigit = true := by
  induction n using Nat.strong_induction_on with
  | _ n ih =>
      by_cases h : n < 10
      · rw [natDigits_lt10 n h]
        intro c hc
        simp at hc
        rw [hc]
        exact digitChar_isDigit n
      · rw [natDigits_step n h]
        intro c hc
        rcases List.mem_append.mp hc with hm | hm
        · exact ih (n / 10) (by omega) c hm
        · simp at hm
          rw [hm]
          exact digitChar_isDigit _

theorem natDigits_ne_nil (n : Nat) : ¬ natDigits n = [] := by
  by_cases h : n < 10
  · rw [natDigits_lt10 n h]; simp
  · rw [natDigits_step n h]; simp

theorem natOfDigits_append_digit (ds : List Char) (d : Char) :
    natOfDigits (ds ++ [d]) = natOfDigits ds * 10 + (d.toNat - 48) := by
  simp [natOfDigits, List.foldl_append]

theorem natOfDigits_natDigits (n : Nat) : natOfDigits (natDigits n) = n := by
  induction n using Nat.strong_induction_on with
  | _ n ih =>
      by_cases h : n < 10
      · rw [natDigits_lt10 n h]
        simp [natOfDigits, digitChar_toNat n h]
      · rw [natDigits_step n h, natOfDigits_append_digit,
          ih (n / 10) (by omega), digitChar_toNat (n % 10) (by omega)]
        omega



/-- Well-placed sentinels: the text decomposes into sentinel-free
characters and whole placeholder tokens `⟨i⟩` with `i < n`.  The outputs
of the protect and interpolate passes satisfy this, and `protLoop` cannot
raise on such a text. -/
inductive SS (n : Nat) : List Char → Prop where
  | nil : SS n []
  | chr {c : Char} {rest : List Char} :
      ¬ c = sentChar → SS n rest → SS n (c :: rest)
  | tok {i : Nat} {rest : List Char} :
      i < n → SS n rest → SS n (sentChar :: natDigits i ++ sentChar :: rest)

theorem SS_of_noSent {n : Nat} : ∀ {cs : List Char}, NoSent cs → SS n cs
  | [], _ => SS.nil
  | c :: rest, h =>
      SS.chr (h c (by simp)) (SS_of_noSent (fun d hd => h d (by simp [hd])))

theorem SS_append {n : Nat} : ∀ {xs ys : List Char},
    SS n xs → SS n ys → SS n (xs ++ ys) := by
  intro xs ys hx hy
  induction hx with
  | nil => simpa using hy
  | chr hc _ ih => exact SS.chr hc ih
  | tok hi _ ih => simpa using SS.tok hi ih

/-- Splitting equation: if `xs ++ c :: ys = d ++ s :: rest` then either the
`s` falls inside `xs`, or `c` hits `d` or `s`. -/
theorem append_eq_append_cons :
    ∀ (d xs : List Char) (c : Char) (ys : List Char) (s : Char) (rest : List Char),
    xs ++ c :: ys = d ++ s :: rest →
    (∃ xs2, xs = d ++ s :: xs2 ∧ rest = xs2 ++ c :: ys) ∨ c ∈ d ∨ c = s
  | [], xs, c, ys, s, rest, h => by
      cases xs with
      | nil =>
          simp only [List.nil_append] at h
          right; right
          exact (List.cons.injEq _ _ _ _ ▸ h).1
      | cons x xs2 =>
          simp only [List.cons_append, List.nil_append, List.cons.injEq] at h
          left
          exact ⟨xs2, by simp [h.1], h.2.symm⟩
  | e :: d2, xs, c, ys, s, rest, h => by
      cases xs with
      | nil =>
          simp only [List.nil_append, List.cons_append, List.cons.injEq] at h
          right; left
          simp [h.1]
      | cons x xs2 =>
          simp only [List.cons_append, List.cons.injEq] at h
          rcases append_eq_append_cons d2 xs2 c ys s rest h.2 with ⟨xs3, h1, h2⟩ | h1 | h1
          · left
            exact ⟨xs3, by simp [h.1, h1], h2⟩
          · right; left; simp [h1]
          · right; right; exact h1

/-- A sentinel-structured text splits cleanly at any character that can
occur in no token (neither a digit nor the sentinel). -/
theorem SS_split {n : Nat} {c : Char} (hd : ¬ c.isDigit = true)
    (hs : ¬ c = sentChar) :
    ∀ {zs : List Char}, SS n zs → ∀ xs ys, zs = xs ++ c :: ys →
    SS n xs ∧ SS n (c :: ys) := by
  intro zs h
  induction h with
  | nil =>
      intro xs ys heq
      exact absurd heq.symm (by simp)
  | chr hc hrest ih =>
      intro xs ys heq
      cases xs with
      | nil =>
          simp only [List.nil_append, List.cons.injEq] at heq
          refine ⟨SS.nil, ?_⟩
          rw [← heq.1, ← heq.2]
          exact SS.chr hc hrest
      | cons x xs2 =>
          simp only [List.cons_append, List.cons.injEq] at heq
          obtain ⟨h1, h2⟩ := ih xs2 ys heq.2
          exact ⟨heq.1 ▸ SS.chr hc h1, h2⟩
  | tok hi hrest ih =>
      intro xs ys heq
      cases xs with
      | nil =>
          rw [List.nil_append] at heq
          injection heq with h1 _
          exact absurd h1.symm hs
      | cons x xs2 =>
          rw [List.cons_append] at heq
          injection heq with h1 h2
          subst h1
          rcases append_eq_append_cons _ xs2 c ys sentChar _ h2.symm with
            ⟨xs3, ha, hb⟩ | hin | hsent
          · obtain ⟨hA, hB⟩ := ih xs3 ys hb
            refine ⟨?_, hB⟩
            rw [ha]
            exact SS.tok hi hA
          · exact absurd (natDigits_all_digit _ c hin) (by simpa using hd)
          · exact absurd hsent hs
  
/-- `splitAtTripleClose` decomposes its input at the first `}}}`. -/
theorem splitAtTripleClose_spec :
    ∀ (cs pre post : List Char), splitAtTripleClose cs = some (pre, post) →
    cs = pre ++ '}' :: '}' :: '}' :: post := by
  intro cs
  induction cs with
  | nil => intro pre post h; simp [splitAtTripleClose] at h
  | cons c rest ih =>
      intro pre post h
      rw [splitAtTripleClose.eq_def] at h
      split at h
      · next r heq =>
          simp only [Option.some.injEq, Prod.mk.injEq] at h
          rw [← h.1, ← h.2]
          simpa using heq
      · next c2 r2 _ heq =>
          injection heq with hc hr
          subst hc
          subst hr
          simp only [Option.map_eq_some'] at h
          obtain ⟨⟨p2, q2⟩, hsp, hpq⟩ := h
          simp only [Prod.mk.injEq] at hpq
          rw [← hpq.1, ← hpq.2]
          simpa using ih p2 q2 hsp
      · next heq => exact absurd heq (by simp)



/-- `splitAtBrace` decomposes its input at the first brace. -/
theorem splitAtBrace_spec :
    ∀ (cs run : List Char) (b : Char) (after : List Char),
    splitAtBrace cs = some (run, b, after) →
    cs = run ++ b :: after ∧ (∀ c ∈ run, ¬ c = '{' ∧ ¬ c = '}') ∧
      (b = '{' ∨ b = '}') := by
  intro cs
  induction cs with
  | nil => intro run b after h; simp [splitAtBrace] at h
  | cons c rest ih =>
      intro run b after h
      rw [splitAtBrace.eq_def] at h
      dsimp only at h
      by_cases hbrace : c = '{' ∨ c = '}'
      · rw [if_pos hbrace] at h
        simp only [Option.some.injEq, Prod.mk.injEq] at h
        refine ⟨?_, ?_, ?_⟩
        · rw [← h.1, ← h.2.1, ← h.2.2]; rfl
        · rw [← h.1]; simp
        · rw [← h.2.1]; exact hbrace
      · rw [if_neg hbrace] at h
        simp only [Option.map_eq_some'] at h
        obtain ⟨⟨r2, b2, a2⟩, hsp, heq⟩ := h
        obtain ⟨h1, h2, h3⟩ := ih r2 b2 a2 hsp
        simp only [Prod.mk.injEq] at heq
        refine ⟨?_, ?_, ?_⟩
        · rw [← heq.1, ← heq.2.1, ← heq.2.2, h1]; rfl
        · rw [← heq.1]
          intro d hd
          rcases List.mem_cons.mp hd with hde | hdm
          · subst hde
            exact ⟨fun hc => hbrace (Or.inl hc), fun hc => hbrace (Or.inr hc)⟩
          · exact h2 d hdm
        · rw [← heq.2.1]; exact h3

/-- Evaluation of `tripleLoop` at a position where no `{{{` starts. -/
theorem tripleLoop_eval_generic (fuel : Nat) (c : Char) (rest : List Char)
    (acc : List (List Char))
    (h : ∀ r3 : List Char, ¬ (c :: rest = '{' :: '{' :: '{' :: r3)) :
    tripleLoop (fuel + 1) (c :: rest) acc =
      ((c :: (tripleLoop fuel rest acc).1), (tripleLoop fuel rest acc).2) := by
  simp only [tripleLoop]
  split
  · next r heq => exact absurd heq (h r)
  · next c2 r2 _ heq =>
      injection heq with h1 h2
      subst h1; subst h2
      rfl
  · next heq => exact absurd heq (by simp)

/-- Evaluation of `doubleLoop` at a position where no `{{` starts. -/
theorem doubleLoop_eval_generic (ctx : Val) (fuel : Nat) (c : Char)
    (rest : List Char) (h : ∀ r2 : List Char, ¬ (c :: rest = '{' :: '{' :: r2)) :
    doubleLoop ctx (fuel + 1) (c :: rest) = c :: doubleLoop ctx fuel rest := by
  simp only [doubleLoop]
  split
  · next r heq => exact absurd heq (h r)
  · next c2 r2 _ heq =>
      injection heq with h1 h2
      subst h1; subst h2
      rfl
  · next heq => exact absurd heq (by simp)

theorem doubleLoop_nil (ctx : Val) : ∀ fuel, doubleLoop ctx fuel [] = []
  | 0 => rfl
  | _ + 1 => rfl

/-- `tripleLoop` only extends the protected list. -/
theorem tripleLoop_acc_le :
    ∀ (fuel : Nat) (cs : List Char) (acc : List (List Char)),
    acc.length ≤ (tripleLoop fuel cs acc).2.length
  | 0, cs, acc => Nat.le_refl _
  | fuel + 1, [], acc => Nat.le_refl _
  | fuel + 1, c :: rest, acc => by
      by_cases h3 : ∃ r3, c :: rest = '{' :: '{' :: '{' :: r3
      · obtain ⟨r3, heq⟩ := h3
        rw [heq]
        rw [show tripleLoop (fuel + 1) ('{' :: '{' :: '{' :: r3) acc =
            (match splitAtTripleClose r3 with
             | some pa =>
                 (sentTok acc.length ++ (tripleLoop fuel pa.2 (acc ++ [pa.1])).1,
                  (tripleLoop fuel pa.2 (acc ++ [pa.1])).2)
             | none => ('{' :: '{' :: '{' :: r3, acc)) from rfl]
        cases hsp : splitAtTripleClose r3 with
        | none => exact Nat.le_refl _
        | some pa =>
            have := tripleLoop_acc_le fuel pa.2 (acc ++ [pa.1])
            simp only [List.length_append, List.length_cons, List.length_nil] at this
            simp only []
            omega
      · rw [tripleLoop_eval_generic fuel c rest acc (fun r3 hc => h3 ⟨r3, hc⟩)]
        exact tripleLoop_acc_le fuel rest acc



/-- The protect pass yields a sentinel-structured text whose token indices
all lie below the final protected-list length. -/
theorem tripleLoop_SS :
    ∀ (fuel : Nat) (cs : List Char) (acc : List (List Char)), NoSent cs →
    SS (tripleLoop fuel cs acc).2.length (tripleLoop fuel cs acc).1
  | 0, cs, acc, h => SS_of_noSent h
  | fuel + 1, [], acc, _ => SS.nil
  | fuel + 1, c :: rest, acc, h => by
      by_cases h3 : ∃ r3, c :: rest = '{' :: '{' :: '{' :: r3
      · obtain ⟨r3, heq⟩ := h3
        rw [heq]
        rw [show tripleLoop (fuel + 1) ('{' :: '{' :: '{' :: r3) acc =
            (match splitAtTripleClose r3 with
             | some pa =>
                 (sentTok acc.length ++ (tripleLoop fuel pa.2 (acc ++ [pa.1])).1,
                  (tripleLoop fuel pa.2 (acc ++ [pa.1])).2)
             | none => ('{' :: '{' :: '{' :: r3, acc)) from rfl]
        cases hsp : splitAtTripleClose r3 with
        | none =>
            simp only []
            refine SS_of_noSent ?_
            rw [← heq]
            exact h
        | some pa =>
            simp only []
            have hdecomp := splitAtTripleClose_spec r3 pa.1 pa.2 (by
              rw [hsp])
            have hrest : NoSent pa.2 := by
              intro d hd
              refine h d ?_
              rw [heq, hdecomp]
              simp [hd]
            have hSS := tripleLoop_SS fuel pa.2 (acc ++ [pa.1]) hrest
            have hlen := tripleLoop_acc_le fuel pa.2 (acc ++ [pa.1])
            simp only [List.length_append, List.length_cons, List.length_nil] at hlen
            rw [show sentTok acc.length ++ (tripleLoop fuel pa.2 (acc ++ [pa.1])).1 =
                sentChar :: natDigits acc.length ++
                  sentChar :: (tripleLoop fuel pa.2 (acc ++ [pa.1])).1 from by
              simp [sentTok]]
            exact SS.tok (by omega) hSS
      · rw [tripleLoop_eval_generic fuel c rest acc (fun r3 hc => h3 ⟨r3, hc⟩)]
        exact SS.chr (h c (by simp))
          (tripleLoop_SS fuel rest acc (fun d hd => h d (by simp [hd])))



/-- Sentinel-free values: no string (or mapping key) in the value contains
the placeholder sentinel character. -/
inductive ValSF : Val → Prop where
  | vnone : ValSF .vnone
  | vbool (b : Bool) : ValSF (.vbool b)
  | vint (n : Int) : ValSF (.vint n)
  | vstr {s : List Char} : NoSent s → ValSF (.vstr s)
  | vlist {xs : List Val} : (∀ x ∈ xs, ValSF x) → ValSF (.vlist xs)
  | vmap {m : List (List Char × Val)} :
      (∀ kv ∈ m, NoSent kv.1) → (∀ kv ∈ m, ValSF kv.2) → ValSF (.vmap m)

/-- Dotted-path lookup in a sentinel-free context yields a sentinel-free
value. -/
theorem lookupParts_SF :
    ∀ (parts : List (List Char)) (v : Val), ValSF v →
    ValSF (lookupParts parts v)
  | [], v, h => h
  | p :: rest, .vmap m, h => by
      cases h with
      | vmap hk hv =>
          simp only [lookupParts]
          cases hf : List.find? (fun kv => decide (kv.1 = p)) m with
          | none => exact ValSF.vnone
          | some kv =>
              exact lookupParts_SF rest kv.2 (hv kv (List.mem_of_find?_eq_some hf))
  | p :: rest, .vnone, _ => ValSF.vnone
  | p :: rest, .vbool b, _ => ValSF.vnone
  | p :: rest, .vint n, _ => ValSF.vnone
  | p :: rest, .vstr s, _ => ValSF.vnone
  | p :: rest, .vlist xs, _ => ValSF.vnone

theorem natDigits_noSent (n : Nat) : NoSent (natDigits n) :=
  fun c hc => isDigit_ne_sent (natDigits_all_digit n c hc)

theorem intRepr_noSent (n : Int) : NoSent (intRepr n) := by
  unfold intRepr
  split
  · intro c hc
    rcases List.mem_cons.mp hc with he | hm
    · rw [he]; decide
    · exact natDigits_noSent _ c hm
  · exact natDigits_noSent _

/-- Characters of a joined list come from the separator or from one of the
parts. -/
theorem joinSep_mem :
    ∀ (sep : List Char) (ls : List (List Char)) (c : Char),
    c ∈ joinSep sep ls → c ∈ sep ∨ ∃ l ∈ ls, c ∈ l
  | _, [], c => by simp [joinSep]
  | _, [x], c => by
      intro h
      right
      exact ⟨x, by simp, by simpa [joinSep] using h⟩
  | sep, x :: y :: rest, c => by
      intro h
      simp only [joinSep, List.append_assoc, List.mem_append] at h
      rcases h with h | h | h
      · right; exact ⟨x, by simp, h⟩
      · left; exact h
      · rcases joinSep_mem sep (y :: rest) c h with h2 | ⟨l, hl, hc⟩
        · left; exact h2
        · right
          refine ⟨l, ?_, hc⟩
          simp only [List.mem_cons] at hl ⊢
          tauto



mutual

/-- `pyRepr` of a sentinel-free value is sentinel-free. -/
theorem pyRepr_SF : ∀ (v : Val), ValSF v → NoSent (pyRepr v)
  | .vnone, _ => by decide
  | .vbool true, _ => by decide
  | .vbool false, _ => by decide
  | .vint n, _ => intRepr_noSent n
  | .vstr s, h => by
      cases h with
      | vstr hs =>
          intro c hc
          simp only [pyRepr, List.mem_cons, List.mem_append, List.mem_singleton,
            or_assoc] at hc
          rcases hc with he | hm | he
          · rw [he]; decide
          · exact hs c hm
          · rcases he with he | he
            · rw [he]; decide
            · simp at he
  | .vlist xs, h => by
      cases h with
      | vlist hxs =>
          intro c hc
          simp only [pyRepr, List.mem_cons, List.mem_append, List.mem_singleton,
            or_assoc] at hc
          rcases hc with he | hm | he
          · rw [he]; decide
          · rcases joinSep_mem _ _ c hm with hsep | ⟨l, hl, hcl⟩
            · exact (by decide : NoSent (lc ", ")) c hsep
            · exact pyReprGoL_SF xs hxs l hl c hcl
          · rcases he with he | he
            · rw [he]; decide
            · simp at he
  | .vmap m, h => by
      cases h with
      | vmap hk hv =>
          intro c hc
          simp only [pyRepr, List.mem_cons, List.mem_append, List.mem_singleton,
            or_assoc] at hc
          rcases hc with he | hm | he
          · rw [he]; decide
          · rcases joinSep_mem _ _ c hm with hsep | ⟨l, hl, hcl⟩
            · exact (by decide : NoSent (lc ", ")) c hsep
            · exact pyReprGoM_SF m hk hv l hl c hcl
          · rcases he with he | he
            · rw [he]; decide
            · simp at he

theorem pyReprGoL_SF :
    ∀ (xs : List Val), (∀ x ∈ xs, ValSF x) →
    ∀ l ∈ pyRepr.goL xs, NoSent l
  | [], _ => by simp [pyRepr.goL]
  | x :: rest, h => by
      intro l hl
      simp only [pyRepr.goL, List.mem_cons] at hl
      rcases hl with he | hm
      · rw [he]
        exact pyRepr_SF x (h x (by simp))
      · exact pyReprGoL_SF rest (fun y hy => h y (by simp [hy])) l hm

theorem pyReprGoM_SF :
    ∀ (m : List (List Char × Val)), (∀ kv ∈ m, NoSent kv.1) →
    (∀ kv ∈ m, ValSF kv.2) → ∀ l ∈ pyRepr.goM m, NoSent l
  | [], _, _ => by simp [pyRepr.goM]
  | kv :: rest, hk, hv => by
      intro l hl
      simp only [pyRepr.goM, List.mem_cons] at hl
      rcases hl with he | hm
      · rw [he]
        intro c hc
        simp only [List.mem_cons, List.mem_append, or_assoc] at hc
        rcases hc with he2 | hm2 | he2 | he2 | he2 | hm3
        · rw [he2]; decide
        · exact hk kv (by simp) c hm2
        · rw [he2]; decide
        · rw [he2]; decide
        · rw [he2]; decide
        · exact pyRepr_SF kv.2 (hv kv (by simp)) c hm3
      · exact pyReprGoM_SF rest (fun y hy => hk y (by simp [hy]))
          (fun y hy => hv y (by simp [hy])) l hm

end

/-- `pyStr` of a sentinel-free value is sentinel-free. -/
theorem pyStr_SF (v : Val) (h : ValSF v) : NoSent (pyStr v) := by
  cases v with
  | vstr s => cases h with | vstr hs => exact hs
  | vnone => exact pyRepr_SF _ h
  | vbool b => exact pyRepr_SF _ h
  | vint n => exact pyRepr_SF _ h
  | vlist xs => exact pyRepr_SF _ h
  | vmap m => exact pyRepr_SF _ h



/-- `doubleLoop` walks over a digit run and a sentinel either by running
out of fuel (leaving the text unchanged) or by passing them through and
continuing behind the sentinel with less fuel. -/
theorem doubleLoop_digits_pass (ctx : Val) :
    ∀ (ds : List Char) (fuel : Nat) (rest2 : List Char),
    (∀ c ∈ ds, c.isDigit = true) →
    (doubleLoop ctx fuel (ds ++ sentChar :: rest2) = ds ++ sentChar :: rest2) ∨
    (∃ fuel2, fuel2 < fuel ∧
      doubleLoop ctx fuel (ds ++ sentChar :: rest2) =
        ds ++ sentChar :: doubleLoop ctx fuel2 rest2)
  | [], 0, rest2, _ => Or.inl rfl
  | [], fuel + 1, rest2, _ => by
      right
      refine ⟨fuel, Nat.lt_succ_self _, ?_⟩
      rw [List.nil_append, List.nil_append]
      exact doubleLoop_eval_generic ctx fuel sentChar rest2
        (fun r2 heq => by injection heq with h1 _; exact (by decide : ¬ sentChar = '{') h1)
  | d :: ds, 0, rest2, _ => Or.inl rfl
  | d :: ds, fuel + 1, rest2, h => by
      have hd : ¬ d = '{' := isDigit_ne_open (h d (by simp))
      rw [List.cons_append,
        doubleLoop_eval_generic ctx fuel d (ds ++ sentChar :: rest2)
          (fun r2 heq => by injection heq with h1 _; exact hd h1)]
      rcases doubleLoop_digits_pass ctx ds fuel rest2
        (fun c hc => h c (by simp [hc])) with heq | ⟨fuel2, hlt, heq⟩
      · left; rw [heq]
      · right
        exact ⟨fuel2, by omega, by rw [heq, List.cons_append]⟩

/-- `lookup` on a sentinel-free context is sentinel-free. -/
theorem lookup_SF (path : List Char) (ctx : Val) (h : ValSF ctx) :
    ValSF (lookup path ctx) :=
  lookupParts_SF _ _ h

/-- The replacement emitted for a `{{run}}` span is sentinel-structured
when the context is sentinel-free and the run is sentinel-structured. -/
theorem doubleRepl_SS {n : Nat} (ctx : Val) (hctx : ValSF ctx)
    (run : List Char) (hrun : SS n run) : SS n (doubleRepl ctx run) := by
  have hSF := lookup_SF (pyStrip run) ctx hctx
  unfold doubleRepl
  generalize hg : lookup (pyStrip run) ctx = v at hSF ⊢
  cases v with
  | vnone =>
      exact SS.chr (by decide) (SS.chr (by decide)
        (SS_append hrun (SS.chr (by decide) (SS.chr (by decide) SS.nil))))
  | vbool b => exact SS_of_noSent (pyStr_SF _ hSF)
  | vint m => exact SS_of_noSent (pyStr_SF _ hSF)
  | vstr s => exact SS_of_noSent (pyStr_SF _ hSF)
  | vlist xs => exact SS_of_noSent (pyStr_SF _ hSF)
  | vmap m => exact SS_of_noSent (pyStr_SF _ hSF)

/-- The interpolation pass preserves sentinel structure when the context
is sentinel-free. -/
theorem doubleLoop_SS (ctx : Val) (hctx : ValSF ctx) (n : Nat) :
    ∀ (fuel : Nat) (cs : List Char), SS n cs → SS n (doubleLoop ctx fuel cs) := by
  intro fuel
  induction fuel using Nat.strong_induction_on with
  | _ fuel ih =>
      intro cs hss
      cases fuel with
      | zero => exact hss
      | succ fuel =>
          cases hss with
          | nil => exact SS.nil
          | chr hc hrest =>
              rename_i c rest
              by_cases h1 : c = '{'
              · subst h1
                cases rest with
                | nil =>
                    rw [show doubleLoop ctx (fuel + 1) ['{'] =
                        '{' :: doubleLoop ctx fuel [] from rfl]
                    rw [doubleLoop_nil]
                    exact SS.chr (by decide) SS.nil
                | cons c2 rest2 =>
                    by_cases h2 : c2 = '{'
                    · subst h2
                      have hrest2 : SS n rest2 := by
                        cases hrest with
                        | chr _ h => exact h
                      rw [show doubleLoop ctx (fuel + 1) ('{' :: '{' :: rest2) =
                          (match splitAtBrace rest2 with
                           | some (run, '}', '}' :: after) =>
                               if run.isEmpty then
                                 '{' :: doubleLoop ctx fuel ('{' :: rest2)
                               else doubleRepl ctx run ++ doubleLoop ctx fuel after
                           | _ => '{' :: doubleLoop ctx fuel ('{' :: rest2)) from rfl]
                      split
                      · next run after heq =>
                          split
                          · exact SS.chr (by decide)
                              (ih fuel (Nat.lt_succ_self _) _ hrest)
                          · obtain ⟨hdec, hfree, _⟩ :=
                              splitAtBrace_spec rest2 run '}' ('}' :: after) heq
                            rw [hdec] at hrest2
                            obtain ⟨hrunSS, hcloseSS⟩ :=
                              SS_split (by decide) (by decide) hrest2 run ('}' :: after) rfl
                            have hafterSS : SS n after := by
                              cases hcloseSS with
                              | chr _ h =>
                                  cases h with
                                  | chr _ h3 => exact h3
                            have hdl : SS n (doubleLoop ctx fuel after) :=
                              ih fuel (Nat.lt_succ_self _) _ hafterSS
                            exact SS_append (doubleRepl_SS ctx hctx run hrunSS) hdl
                      · exact SS.chr (by decide)
                          (ih fuel (Nat.lt_succ_self _) _ hrest)
                    · rw [doubleLoop_eval_generic ctx fuel '{' (c2 :: rest2)
                        (fun r2 hc2 => by
                          injection hc2 with _ h4
                          injection h4 with h5 _
                          exact h2 h5)]
                      exact SS.chr (by decide) (ih fuel (Nat.lt_succ_self _) _ hrest)
              · rw [doubleLoop_eval_generic ctx fuel c rest
                  (fun r2 hc2 => by injection hc2 with h3 _; exact h1 h3)]
                exact SS.chr hc (ih fuel (Nat.lt_succ_self _) _ hrest)
          | tok hi hrest =>
              rename_i i rest2
              rw [show sentChar :: natDigits i ++ sentChar :: rest2 =
                  sentChar :: (natDigits i ++ sentChar :: rest2) from rfl]
              rw [doubleLoop_eval_generic ctx fuel sentChar (natDigits i ++ sentChar :: rest2)
                (fun r2 heq => by
                  injection heq with hh1 _
                  exact (by decide : ¬ sentChar = '{') hh1)]
              rcases doubleLoop_digits_pass ctx (natDigits i) fuel rest2
                (natDigits_all_digit i) with heq | ⟨fuel2, hlt, heq⟩
              · rw [heq]
                exact SS.tok hi hrest
              · rw [heq]
                exact SS.tok hi (ih fuel2 (by omega) _ hrest)



theorem takeWhile_append_stop (p : Char → Bool) :
    ∀ (xs : List Char) (y : Char) (ys : List Char), (∀ x ∈ xs, p x = true) →
    ¬ p y = true → (xs ++ y :: ys).takeWhile p = xs
  | [], y, ys, _, hy => by simp [List.takeWhile_cons, hy]
  | x :: xs, y, ys, hx, hy => by
      simp only [List.cons_append, List.takeWhile_cons, hx x (by simp), if_true]
      rw [takeWhile_append_stop p xs y ys (fun z hz => hx z (by simp [hz])) hy]

/-- The restore pass succeeds on any sentinel-structured text whose token
indices lie below the protected-list length. -/
theorem protLoop_isSome (prot : List (List Char)) :
    ∀ (fuel : Nat) (cs : List Char), SS prot.length cs →
    (protLoop prot fuel cs).isSome = true := by
  intro fuel
  induction fuel with
  | zero => intro cs _; rfl
  | succ fuel ih =>
      intro cs hss
      cases hss with
      | nil => rfl
      | chr hc hrest =>
          rename_i c rest
          have hih := ih rest hrest
          simp only [protLoop, if_neg hc]
          cases hp : protLoop prot fuel rest with
          | none => rw [hp] at hih; simp at hih
          | some t => simp
      | tok hi hrest =>
          rename_i i rest
          have hTW : (natDigits i ++ sentChar :: rest).takeWhile Char.isDigit =
              natDigits i :=
            takeWhile_append_stop _ _ _ _ (natDigits_all_digit i) (by decide)
          simp only [protLoop, List.append_eq, eq_self_iff_true, if_true]
          rw [hTW, List.drop_left]
          simp only []
          rw [if_pos ⟨trivial, by simpa using natDigits_ne_nil i⟩]
          rw [natOfDigits_natDigits]
          cases hget : prot.get? i with
          | none =>
              have := List.get?_eq_none.mp hget
              omega
          | some content =>
              have hih := ih rest hrest
              cases hp : protLoop prot fuel rest with
              | none => rw [hp] at hih; simp at hih
              | some t => simp



/-- Whether the text contains a `}}}`, i.e. whether `_TRIPLE` can match at
or after this position. -/
def hasTripleCloseB : List Char → Bool
  | '}' :: '}' :: '}' :: _ => true
  | _ :: rest => hasTripleCloseB rest
  | [] => false

/-- Whether a `_DOUBLE` match starts at exactly this position. -/
def tryDoubleAt : List Char → Bool
  | '{' :: '{' :: rest =>
      (match splitAtBrace rest with
       | some (run, '}', '}' :: _) => ¬ run.isEmpty
       | _ => false)
  | _ => false

/-- Whether `_DOUBLE` matches anywhere in the text. -/
def doubleMatchB : List Char → Bool
  | [] => false
  | c :: rest => tryDoubleAt (c :: rest) || doubleMatchB rest

theorem hasTripleCloseB_tail {c : Char} {rest : List Char}
    (h : hasTripleCloseB (c :: rest) = false) : hasTripleCloseB rest = false := by
  rw [hasTripleCloseB.eq_def] at h
  split at h
  · exact absurd h (by simp)
  · next c2 r2 _ heq =>
      injection heq with _ h2
      rw [h2]
      exact h
  · next heq => exact absurd heq (by simp)

theorem doubleMatchB_tail {c : Char} {rest : List Char}
    (h : doubleMatchB (c :: rest) = false) : doubleMatchB rest = false := by
  simp only [doubleMatchB, Bool.or_eq_false_iff] at h
  exact h.2

theorem splitAtTripleClose_none :
    ∀ (cs : List Char), hasTripleCloseB cs = false → splitAtTripleClose cs = none
  | [], _ => rfl
  | c :: rest, h => by
      rw [splitAtTripleClose.eq_def]
      split
  
      · next r heq =>
          rw [heq] at h
          exact absurd h (by rw [show hasTripleCloseB ('}' :: '}' :: '}' :: r) = true from rfl]; simp)
      · next c2 r2 _ heq =>
          injection heq with _ h2
          rw [splitAtTripleClose_none r2 (by rw [← h2]; exact hasTripleCloseB_tail h)]
          rfl
      · rfl

/-- Without a `}}}` the protect pass changes nothing. -/
theorem tripleLoop_id :
    ∀ (fuel : Nat) (cs : List Char) (acc : List (List Char)),
    hasTripleCloseB cs = false → tripleLoop fuel cs acc = (cs, acc)
  | 0, cs, acc, _ => rfl
  | fuel + 1, [], acc, _ => rfl
  | fuel + 1, c :: rest, acc, h => by
      by_cases h3 : ∃ r3, c :: rest = '{' :: '{' :: '{' :: r3
      · obtain ⟨r3, heq⟩ := h3
        rw [heq]
        rw [show tripleLoop (fuel + 1) ('{' :: '{' :: '{' :: r3) acc =
            (match splitAtTripleClose r3 with
             | some pa =>
                 (sentTok acc.length ++ (tripleLoop fuel pa.2 (acc ++ [pa.1])).1,
                  (tripleLoop fuel pa.2 (acc ++ [pa.1])).2)
             | none => ('{' :: '{' :: '{' :: r3, acc)) from rfl]
        rw [splitAtTripleClose_none r3 (by
          rw [heq] at h
          exact hasTripleCloseB_tail (hasTripleCloseB_tail (hasTripleCloseB_tail h)))]
      · rw [tripleLoop_eval_generic fuel c rest acc (fun r3 hc => h3 ⟨r3, hc⟩)]
        rw [tripleLoop_id fuel rest acc (hasTripleCloseB_tail h)]

/-- Without a `{{key}}` match the interpolation pass changes nothing. -/
theorem doubleLoop_id (ctx : Val) :
    ∀ (fuel : Nat) (cs : List Char), doubleMatchB cs = false →
    doubleLoop ctx fuel cs = cs := by
  intro fuel
  induction fuel with
  | zero => intro cs _; rfl
  | succ fuel ih =>
      intro cs h
      match cs with
      | [] => rfl
      | c :: rest =>
          by_cases h2 : ∃ r2, c :: rest = '{' :: '{' :: r2
          · obtain ⟨r2, heq⟩ := h2
            rw [heq]
            rw [show doubleLoop ctx (fuel + 1) ('{' :: '{' :: r2) =
                (match splitAtBrace r2 with
                 | some (run, '}', '}' :: after) =>
                     if run.isEmpty then '{' :: doubleLoop ctx fuel ('{' :: r2)
                     else doubleRepl ctx run ++ doubleLoop ctx fuel after
                 | _ => '{' :: doubleLoop ctx fuel ('{' :: r2)) from rfl]
            have htail : doubleMatchB ('{' :: r2) = false := by
              rw [heq] at h
              exact doubleMatchB_tail h
            split
            · next run after hsb =>
                have htry : tryDoubleAt ('{' :: '{' :: r2) = false := by
                  rw [heq] at h
                  simp only [doubleMatchB, Bool.or_eq_false_iff] at h
                  exact h.1
                rw [show tryDoubleAt ('{' :: '{' :: r2) =
                    (match splitAtBrace r2 with
                     | some (run, '}', '}' :: _) => ¬ run.isEmpty
                     | _ => false) from rfl, hsb] at htry
                simp only [decide_not, Bool.not_eq_false'] at htry
                rw [if_pos (by simpa using htry)]
                rw [ih _ htail]
            · rw [ih _ htail]
          · rw [show doubleLoop ctx (fuel + 1) (c :: rest) =
                c :: doubleLoop ctx fuel rest from
              doubleLoop_eval_generic ctx fuel c rest (fun r2 hc => h2 ⟨r2, hc⟩)]
            rw [ih _ (doubleMatchB_tail h)]

/-- The restore pass is the identity on sentinel-free text. -/
theorem protLoop_noSent (prot : List (List Char)) :
    ∀ (fuel : Nat) (cs : List Char), NoSent cs → protLoop prot fuel cs = some cs
  | 0, cs, _ => rfl
  | fuel + 1, [], _ => rfl
  | fuel + 1, c :: rest, h => by
      simp only [protLoop, if_neg (h c (by simp))]
      rw [protLoop_noSent prot fuel rest (fun d hd => h d (by simp [hd]))]
      rfl



/-- C7 (counterexample): `_apply_macros` can raise: a text consisting of a
stray placeholder token `0` (no triple span was protected, so the
protected list is empty and `protected[0]` raises `IndexError`), and a
well-formed `{{x}}` whose context value itself contains a sentinel-indexed
token `9` both produce an exception (`none`), so the function does not
return normally on every input string and context. -/
theorem C7_counterexample :
    applyMacros [sentChar, '0', sentChar] (Val.vmap []) = none ∧
    applyMacros (lc "{{x}}")
      (Val.vmap [(lc "x", Val.vstr [sentChar, '9', sentChar])]) = none := by
  constructor
  · decide
  · decide

/-- C7 (amended): for every input string that does not contain the
private-use sentinel character U+E000 and every sentinel-free context
mapping, `_apply_macros` returns normally with a string; moreover when no
`}}}` occurs (so no triple span matches) and no `{{key}}` span matches,
the malformed or unmatched delimiters are left as literal text: the output
is exactly the input. -/
theorem C7_no_raise (text : List Char) (ctx : Val)
    (htext : NoSent text) (hctx : ValSF ctx) :
    (applyMacros text ctx).isSome = true ∧
    (hasTripleCloseB text = false → doubleMatchB text = false →
      applyMacros text ctx = some text) := by
  constructor
  · unfold applyMacros
    by_cases he : text.isEmpty = true
    · rw [if_pos he]; rfl
    · rw [if_neg he]
      have hT := tripleLoop_SS (text.length + 1) text [] htext
      have hD := doubleLoop_SS ctx hctx _
        ((tripleLoop (text.length + 1) text []).1.length + 1) _ hT
      exact protLoop_isSome _ _ _ hD
  · intro h3 h2
    unfold applyMacros
    by_cases he : text.isEmpty = true
    · rw [if_pos he]
    · rw [if_neg he]
      have h1 : tripleLoop (text.length + 1) text [] = (text, []) :=
        tripleLoop_id _ _ _ h3
      simp only [h1]
      rw [doubleLoop_id ctx _ _ h2]
      exact protLoop_noSent _ _ _ htext

theorem C7_witness :
    NoSent (lc "oops \x7b\x7b unclosed") ∧
    (applyMacros (lc "oops \x7b\x7b unclosed")
      (Val.vmap [(lc "x", Val.vstr (lc "1"))])).isSome = true ∧
    applyMacros (lc "oops \x7b\x7b unclosed") (Val.vmap [(lc "x", Val.vstr (lc "1"))]) =
      some (lc "oops \x7b\x7b unclosed") := by
  have hctx : ValSF (Val.vmap [(lc "x", Val.vstr (lc "1"))]) := by
    refine ValSF.vmap ?_ ?_
    · intro kv hkv
      simp only [List.mem_singleton] at hkv
      rw [hkv]
      decide
    · intro kv hkv
      simp only [List.mem_singleton] at hkv
      rw [hkv]
      exact ValSF.vstr (by decide)
  have h := C7_no_raise (lc "oops \x7b\x7b unclosed") _ (by decide) hctx
  exact ⟨by decide, h.1, h.2 (by decide) (by decide)⟩

end PB
